import Mathlib

/-!
Verification of the primerForge two-stage primer-discovery pipeline
(src/bin/getCandidateKmers.py, src/bin/getPrimerPairs.py,
src/bin/removeOutgroupPrimers.py, src/bin/main.py) against its
natural-language specification.

The Python sources are shallowly embedded below.  Python dicts are
modelled as insertion-ordered association lists (a faithful model of
CPython dict semantics: lookup by key, assignment replaces in place or
appends at the end), Python sets as insertion-ordered duplicate-free
lists (iteration order of a Python set is unspecified; the embeddings
fix insertion order, and no theorem below depends on that choice),
Python ints as Int, and exceptions as Option/Except.  Helper modules of
the repository that are not part of the four source files (bin/Primer.py,
bin/utilities.py, bin/constants.py, bin/Parameters.py) are modelled from
the specification; each such definition carries a note.
-/

/-- Nucleotide alphabet.  The spec restricts input sequences to A/C/G/T. -/
inductive Nuc where
  | A
  | C
  | G
  | T
deriving DecidableEq

/-- Sequences (Bio.Seq.Seq values restricted to A/C/G/T) as lists of nucleotides. -/
abbrev Sq := List Nuc

/-- Modelled from the spec: complement is the involution A-T, C-G. -/
def Nuc.complement : Nuc → Nuc
  | Nuc.A => Nuc.T
  | Nuc.T => Nuc.A
  | Nuc.C => Nuc.G
  | Nuc.G => Nuc.C

/-- Modelled from the spec: reverse-complement is reverse then complement
(Bio.Seq.reverse_complement, external to src/). -/
def revComp (s : Sq) : Sq := (s.map Nuc.complement).reverse

/-- Number of G/C bases in a sequence. -/
def gcCount (s : Sq) : Nat := s.countP (fun b => b == Nuc.G || b == Nuc.C)

/-- Modelled from the spec: gc percent is 100 * (|G|+|C|) / length
(cached on the Primer object by bin/Primer.py, which is not in src/). -/
def gcPercent (s : Sq) : ℚ := 100 * (gcCount s : ℚ) / (s.length : ℚ)

/-- Occurrence test used to model kmpSearch (bin/utilities.py, not in src/).
Modelled from the spec: kmpSearch returns true iff the pattern occurs in the
text as a contiguous substring. -/
def containsSub (text pat : Sq) : Bool :=
  (List.range (text.length + 1)).any (fun i => pat.isPrefixOf (text.drop i))

/-- Modelled from the spec: the Primer record (bin/Primer.py, not in src/)
holds sequence, contig id, start and length; equality is by this four-tuple
(Tm and GC are derived from the sequence alone, so they are computed by
functions on `seq` rather than stored). -/
structure Primer where
  seq : Sq
  contig : String
  start : Int
  length : Int
deriving DecidableEq

/-- Modelled from the spec: end = start + length - 1 (inclusive right endpoint). -/
def Primer.endPos (p : Primer) : Int := p.start + p.length - 1

/-- Association-list lookup, the model of Python dict access `d[k]`
(None models a KeyError). -/
def lookupA {α β : Type} [DecidableEq α] (l : List (α × β)) (k : α) : Option β :=
  (l.find? (fun e => e.1 == k)).map (fun e => e.2)

/-- Python dict assignment `d[k] = v`: replace in place if the key exists,
otherwise append at the end. -/
def upsertReplace {α β : Type} [DecidableEq α] (l : List (α × β)) (k : α) (v : β) :
    List (α × β) :=
  if (lookupA l k).isSome then l.map (fun e => if e.1 = k then (k, v) else e)
  else l ++ [(k, v)]

/-- Python pattern `d[k] = d.get(k, list()); d[k].append(x)`: append x to the
list stored under k, creating the entry if needed. -/
def upsertAppend {α β : Type} [DecidableEq α] (l : List (α × List β)) (k : α) (x : β) :
    List (α × List β) :=
  if (lookupA l k).isSome then l.map (fun e => if e.1 = k then (e.1, e.2 ++ [x]) else e)
  else l ++ [(k, [x])]

/-- Python `s.add(x)` on an insertion-ordered duplicate-free list. -/
def insertNew {α : Type} [DecidableEq α] (l : List α) (x : α) : List α :=
  if x ∈ l then l else l ++ [x]

/-
Component C5: the biochemistry filter
(src/bin/getCandidateKmers.py, __evaluateKmersAtOnePosition, lines 111-188).
-/

/-- Embedding of the helper noLongRepeats: the primer must contain none of
AAAA, TTTT, CCCC, GGGG (kmpSearch against each repeat). -/
def noLongRepeats (p : Primer) : Bool :=
  !([List.replicate 4 Nuc.A, List.replicate 4 Nuc.T,
     List.replicate 4 Nuc.C, List.replicate 4 Nuc.G].any
      (fun r => containsSub p.seq r))

/-- Embedding of the helper noIntraPrimerComplements: for idx in
range(len(primer) - 3), the slice revComp(seq)[idx:idx+4] must not occur in
the primer sequence (len(primer) is the sequence length). -/
def noIntraPrimerComplements (p : Primer) : Bool :=
  !((List.range (p.seq.length - 3)).any
      (fun idx => containsSub p.seq (((revComp p.seq).drop idx).take 4)))

/-- Embedding of __evaluateKmersAtOnePosition (getCandidateKmers.py 111-188).
The while loop scans posL in order and appends the first Primer passing the
GC, Tm, long-repeat and intra-primer-complement checks to the shared list;
the returned list is the sequence of appended primers.  The melting
temperature (computed by bin/Primer.py, not in src/; deterministic in the
sequence per the spec) is an explicit function parameter TmOf. -/
def evaluateKmersAtOnePosition (TmOf : Sq → ℚ) (minGc maxGc minTm maxTm : ℚ)
    (contig : String) (start : Int) : List (Sq × Int) → List Primer
  | [] => []
  | (s, len) :: rest =>
    let primer : Primer := ⟨s, contig, start, len⟩
    if (minGc ≤ gcPercent primer.seq ∧ gcPercent primer.seq ≤ maxGc) ∧
       (minTm ≤ TmOf primer.seq ∧ TmOf primer.seq ≤ maxTm) then
      if noLongRepeats primer then
        if noIntraPrimerComplements primer then [primer]
        else evaluateKmersAtOnePosition TmOf minGc maxGc minTm maxTm contig start rest
      else evaluateKmersAtOnePosition TmOf minGc maxGc minTm maxTm contig start rest
    else evaluateKmersAtOnePosition TmOf minGc maxGc minTm maxTm contig start rest

/-- Claim-side predicate: the sequence contains no run of four identical bases. -/
def NoHomopolymerRun (s : Sq) : Prop :=
  ∀ b : Nuc, ¬ (List.replicate 4 b <:+: s)

/-- Claim-side predicate: no length-4 window of the reverse complement occurs
as a substring of the sequence. -/
def NoIntraRevCompWindow (s : Sq) : Prop :=
  ∀ w : Sq, w.length = 4 → w <:+: revComp s → ¬ (w <:+: s)

/-- Claim-side predicate: all four biochemistry checks of C5, stated in the
words of the claim. -/
def ClaimBiochemPass (TmOf : Sq → ℚ) (minGc maxGc minTm maxTm : ℚ) (p : Primer) : Prop :=
  (minGc ≤ gcPercent p.seq ∧ gcPercent p.seq ≤ maxGc) ∧
  (minTm ≤ TmOf p.seq ∧ TmOf p.seq ≤ maxTm) ∧
  NoHomopolymerRun p.seq ∧ NoIntraRevCompWindow p.seq

/-
Component C6: the bin builder
(src/bin/getPrimerPairs.py, __binOverlappingPrimers lines 7-44,
__minimizeOverlaps lines 47-87, __binCandidatePrimers lines 90-106).
-/

/-- State of the per-contig loop of __binOverlappingPrimers: the current bin
number, prevEnd (None before the first candidate), and the bins dict. -/
structure BinSt where
  curBin : Nat
  prevEnd : Option Int
  bins : List (Nat × List Primer)

/-- One iteration of the candidate loop of __binOverlappingPrimers
(getPrimerPairs.py 27-42): first candidate opens bin 0; a candidate with
start < prevEnd joins the current bin; otherwise a new bin is opened.
prevEnd is set to cand.end in every branch. -/
def binStep (st : BinSt) (cand : Primer) : BinSt :=
  match st.prevEnd with
  | none => ⟨st.curBin, some cand.endPos, st.bins ++ [(st.curBin, [cand])]⟩
  | some pe =>
    if cand.start < pe then
      ⟨st.curBin, some cand.endPos, upsertAppend st.bins st.curBin cand⟩
    else
      ⟨st.curBin + 1, some cand.endPos, st.bins ++ [(st.curBin + 1, [cand])]⟩

/-- Bins for one contig, as produced by __binOverlappingPrimers. -/
def binOne (cands : List Primer) : List (Nat × List Primer) :=
  (cands.foldl binStep ⟨0, none, []⟩).bins

/-- Embedding of __binOverlappingPrimers (getPrimerPairs.py 7-44). -/
def binOverlappingPrimers (candidates : List (String × List Primer)) :
    List (String × List (Nat × List Primer)) :=
  candidates.map (fun e => (e.1, binOne e.2))

/-- The walk described by the claim for C4: new bin exactly when
cand.start ≥ prev_end, and prev_end is updated to max(prev_end, cand.end). -/
def binWalkMax (pe : Int) (cur : List Primer) : List Primer → List (List Primer)
  | [] => [cur]
  | c :: cs =>
    if c.start < pe then binWalkMax (max pe c.endPos) (cur ++ [c]) cs
    else cur :: binWalkMax c.endPos [c] cs

/-- Bin contents under the claim's running-maximum walk. -/
def binsByMaxEnd : List Primer → List (List Primer)
  | [] => []
  | c :: cs => binWalkMax c.endPos [c] cs

/-- The walk actually performed by the source: same new-bin test, but
prev_end is set to cand.end (the end of the last primer appended). -/
def binWalkLast (pe : Int) (cur : List Primer) : List Primer → List (List Primer)
  | [] => [cur]
  | c :: cs =>
    if c.start < pe then binWalkLast c.endPos (cur ++ [c]) cs
    else cur :: binWalkLast c.endPos [c] cs

/-- Bin contents under the last-end walk. -/
def binsByLastEnd : List Primer → List (List Primer)
  | [] => []
  | c :: cs => binWalkLast c.endPos [c] cs

/-- Windows of length k of a sequence (each `s[i:i+k]`). -/
def windowsOf (k : Nat) (s : Sq) : List Sq :=
  (List.range (s.length + 1 - k)).map (fun i => (s.drop i).take k)

/-- Alphabet position of a base, A < C < G < T (lexicographic string order). -/
def nucVal : Nuc → Nat
  | Nuc.A => 0
  | Nuc.C => 1
  | Nuc.G => 2
  | Nuc.T => 3

/-- Strict lexicographic order on sequences, matching Python string order. -/
def seqLtB : Sq → Sq → Bool
  | _, [] => false
  | [], _ :: _ => true
  | a :: as_, b :: bs =>
    if nucVal a < nucVal b then true
    else if nucVal b < nucVal a then false
    else seqLtB as_ bs

/-- Modelled from the spec: the minimizer of length k is the lexicographically
smallest length-k window over both strands, ties broken by the earliest
position on the forward strand (Primer.getMinimizer of bin/Primer.py, not in
src/). -/
def Primer.getMinimizer (p : Primer) (k : Nat) : Sq :=
  match windowsOf k p.seq ++ windowsOf k (revComp p.seq) with
  | [] => []
  | w :: ws => ws.foldl (fun best x => if seqLtB x best then x else best) w

/-- Embedding of the helper overlapIsTooLong (getPrimerPairs.py 58-62):
primers[-1].end - primers[0].start > 64.  The Python code never reaches an
empty bin (bins are created non-empty); the empty case yields false. -/
def tooLongBin (primers : List Primer) : Bool :=
  match primers.getLast?, primers.head? with
  | some a, some b => decide (a.endPos - b.start > 64)
  | _, _ => false

/-- Clustering of a bin's primers by minimizer (getPrimerPairs.py 77-82):
a dict from minimizer to the primers carrying it, in insertion order. -/
def clustersOf (minim : Nat) (primers : List Primer) : List (Sq × List Primer) :=
  primers.foldl (fun acc p => upsertAppend acc (p.getMinimizer minim) p) []

/-- Assigns consecutive bin numbers starting at n (getPrimerPairs.py 85-87). -/
def numberFrom (n : Nat) : List (List Primer) → List (Nat × List Primer)
  | [] => []
  | b :: bs => (n, b) :: numberFrom (n + 1) bs

/-- Embedding of __minimizeOverlaps (getPrimerPairs.py 47-87) for one contig:
bins that are too long are popped and their primers re-binned by minimizer,
new bins being numbered from max(existing keys) + 1.  The Python loop
iterates over a snapshot of the keys in unspecified set order and pops in
place; this model processes the snapshot in dict insertion order (kept bins
stay in place, new bins are appended), which fixes one of the admissible
orders.  Python raises on max() of an empty dict; the embedding gives the
empty dict max 0 and the theorems only ever apply it to non-empty inputs. -/
def minimizeOverlaps (minim : Nat) (bins : List (Nat × List Primer)) :
    List (Nat × List Primer) :=
  let curBin := ((bins.map Prod.fst).foldl max 0) + 1
  bins.filter (fun e => !tooLongBin e.2) ++
    numberFrom curBin
      ((bins.filter (fun e => tooLongBin e.2)).flatMap
        (fun e => (clustersOf minim e.2).map Prod.snd))

/-- Embedding of __binCandidatePrimers (getPrimerPairs.py 90-106): overlap
binning followed by minimizer splitting with window int(minPrimerLen / 2). -/
def binCandidatePrimers (candidates : List (String × List Primer)) (minPrimerLen : Nat) :
    List (String × List (Nat × List Primer)) :=
  (binOverlappingPrimers candidates).map
    (fun e => (e.1, minimizeOverlaps (minPrimerLen / 2) e.2))

/-
Component C7 bin-pair scan
(src/bin/getPrimerPairs.py, __evaluateBinPairs lines 278-345; only the
bin-pair selection loop, lines 307-334, is the subject of claim C5).
-/

/-- The start of bin[0], i.e. `bins[contig][x][0].start`.  Python raises on an
empty bin; bins are never empty in the pipeline and the embedding returns 0. -/
def firstStartD (l : List Primer) : Int :=
  match l.head? with
  | some p => p.start
  | none => 0

/-- The end of bin[-1], i.e. `bin[-1].end` (0 on the unreachable empty bin). -/
def lastEndD (l : List Primer) : Int :=
  match l.getLast? with
  | some p => p.endPos
  | none => 0

/-- Stable insertion used to model Python's stable `sorted` with a key. -/
def insertSortedBy {α : Type} (key : α → Int) (x : α) : List α → List α
  | [] => [x]
  | y :: ys => if key x ≤ key y then x :: y :: ys else y :: insertSortedBy key x ys

/-- Stable ascending sort by an integer key, the model of Python `sorted`. -/
def sortBy {α : Type} (key : α → Int) (l : List α) : List α :=
  l.foldr (insertSortedBy key) []

/-- The bin lists of one contig in the order visited by __evaluateBinPairs:
`sorted(binned[contig].keys(), key=lambda x: binned[contig][x][0].start)`,
each key then dereferenced in the dict. -/
def sortedBinLists (bins : List (Nat × List Primer)) : List (List Primer) :=
  (sortBy (fun k => firstStartD ((lookupA bins k).getD [])) (bins.map Prod.fst)).map
    (fun k => (lookupA bins k).getD [])

/-- Inner loop over bin2 candidates (getPrimerPairs.py 315-334): compute
smallest = (bin2[0].start + minLen) - (bin1[-1].end - minLen) and
largest = bin2[-1].end - bin1[0].start; break when smallest > maxProd, skip
when largest < minProd, otherwise submit (bin1, bin2). -/
def scanB (minLen minProd maxProd : Int) (bin1 : List Primer) :
    List (List Primer) → List (List Primer × List Primer)
  | [] => []
  | bin2 :: rest =>
    let smallest := (firstStartD bin2 + minLen) - (lastEndD bin1 - minLen)
    let largest := lastEndD bin2 - firstStartD bin1
    if maxProd < smallest then []
    else if largest < minProd then scanB minLen minProd maxProd bin1 rest
    else (bin1, bin2) :: scanB minLen minProd maxProd bin1 rest

/-- Outer loop over bin1 (getPrimerPairs.py 313-334). -/
def scanAll (minLen minProd maxProd : Int) :
    List (List Primer) → List (List Primer × List Primer)
  | [] => []
  | b :: rest =>
    scanB minLen minProd maxProd b rest ++ scanAll minLen minProd maxProd rest

/-- Embedding of the bin-pair selection performed by __evaluateBinPairs
(getPrimerPairs.py 307-334): the list of (bin1, bin2) arguments submitted for
per-pair evaluation, over all contigs. -/
def evaluateBinPairsScan (binned : List (String × List (Nat × List Primer)))
    (minLen minProd maxProd : Int) : List (List Primer × List Primer) :=
  binned.flatMap (fun e => scanAll minLen minProd maxProd (sortedBinLists e.2))

/-- Minimum start of a bin (the claim's B.left). -/
def binLeft : List Primer → Int
  | [] => 0
  | p :: ps => ps.foldl (fun m q => min m q.start) p.start

/-- Maximum primer end of a bin (the claim's A.right / B.right). -/
def binRight : List Primer → Int
  | [] => 0
  | p :: ps => ps.foldl (fun m q => max m q.endPos) p.endPos

/-- The claim's version of the inner loop: identical control flow, but with
A.right and B.right taken as the maximum primer end of the bin and B.left as
its minimum start. -/
def scanBClaim (minLen minProd maxProd : Int) (bin1 : List Primer) :
    List (List Primer) → List (List Primer × List Primer)
  | [] => []
  | bin2 :: rest =>
    let smallest := (binLeft bin2 + minLen) - (binRight bin1 - minLen)
    let largest := binRight bin2 - binLeft bin1
    if maxProd < smallest then []
    else if largest < minProd then scanBClaim minLen minProd maxProd bin1 rest
    else (bin1, bin2) :: scanBClaim minLen minProd maxProd bin1 rest

/-- The claim's version of the outer loop. -/
def scanAllClaim (minLen minProd maxProd : Int) :
    List (List Primer) → List (List Primer × List Primer)
  | [] => []
  | b :: rest =>
    scanBClaim minLen minProd maxProd b rest ++ scanAllClaim minLen minProd maxProd rest

/-- The bin-pair scan as worded by claim C5: bins sorted by left endpoint
(minimum start), bounds from minimum start / maximum end. -/
def evaluateBinPairsClaim (binned : List (String × List (Nat × List Primer)))
    (minLen minProd maxProd : Int) : List (List Primer × List Primer) :=
  binned.flatMap
    (fun e => scanAllClaim minLen minProd maxProd (sortBy binLeft (e.2.map Prod.snd)))

/-
Component C7 persistence: __saveCandidatePrimerPairs (getPrimerPairs.py
109-144) and __loadCandidatePrimerPairs (getPrimerPairs.py 147-193).
The file is modelled as its character list.  _SEP and _EOL come from
bin/constants.py (not in src/); modelled from the spec: tab-separated,
newline-terminated rows.
-/

/-- Character content of a file. -/
abbrev Chars := List Char

/-- Decimal digit characters. -/
def digitChars : List Char := ['0', '1', '2', '3', '4', '5', '6', '7', '8', '9']

/-- Fuel-driven decimal printer for naturals (the fuel always suffices when it
exceeds the number). -/
def natCharsGo : Nat → Nat → Chars
  | 0, _ => []
  | fuel + 1, n =>
    if n < 10 then [digitChars.getD n '0']
    else natCharsGo fuel (n / 10) ++ [digitChars.getD (n % 10) '0']

/-- Decimal representation of a natural, the model of Python str(int) for
non-negative values. -/
def natChars (n : Nat) : Chars := natCharsGo (n + 1) n

/-- Decimal representation of an integer, the model of Python str(int). -/
def intChars (i : Int) : Chars :=
  if i < 0 then '-' :: natChars (-i).toNat else natChars i.toNat

/-- Value of a decimal digit character. -/
def charDigit? (c : Char) : Option Nat :=
  if c = '0' then some 0 else if c = '1' then some 1 else if c = '2' then some 2
  else if c = '3' then some 3 else if c = '4' then some 4 else if c = '5' then some 5
  else if c = '6' then some 6 else if c = '7' then some 7 else if c = '8' then some 8
  else if c = '9' then some 9 else none

/-- One step of decimal accumulation. -/
def parseDigitStep (acc : Option Nat) (c : Char) : Option Nat :=
  match acc, charDigit? c with
  | some a, some d => some (a * 10 + d)
  | _, _ => none

/-- Parser for unsigned decimal strings, the model of Python int() on the
digit strings this pipeline writes (None models a ValueError). -/
def parseNatChars (cs : Chars) : Option Nat :=
  if cs.isEmpty then none else cs.foldl parseDigitStep (some 0)

/-- Parser for optionally-negated decimal strings, the model of Python int(). -/
def parseIntChars : Chars → Option Int
  | [] => none
  | c :: rest =>
    if c = '-' then (parseNatChars rest).map (fun n => -(n : Int))
    else (parseNatChars (c :: rest)).map (fun n => (n : Int))

/-- Letter of a base, as written by str on a Bio.Seq value. -/
def nucChar : Nuc → Char
  | Nuc.A => 'A'
  | Nuc.C => 'C'
  | Nuc.G => 'G'
  | Nuc.T => 'T'

/-- Character rendering of a sequence. -/
def seqChars (s : Sq) : Chars := s.map nucChar

/-- Base denoted by a letter (None for characters outside A/C/G/T; the
pipeline only ever parses its own output, which is within the alphabet). -/
def charNuc? (c : Char) : Option Nuc :=
  if c = 'A' then some Nuc.A else if c = 'C' then some Nuc.C
  else if c = 'G' then some Nuc.G else if c = 'T' then some Nuc.T else none

/-- Parses a sequence back from characters. -/
def charsSeq? : Chars → Option Sq
  | [] => some []
  | c :: rest =>
    match charNuc? c, charsSeq? rest with
    | some b, some bs => some (b :: bs)
    | _, _ => none

/-- Join of fields by a separator character, the model of sep.join(...). -/
def intercalateChar (c : Char) : List Chars → Chars
  | [] => []
  | [x] => x
  | x :: y :: xs => x ++ c :: intercalateChar c (y :: xs)

/-- Split on a separator character, the model of str.split(sep) and of line
iteration over a file when the separator is the newline. -/
def splitOnChar (c : Char) : Chars → List Chars
  | [] => [[]]
  | x :: xs =>
    if x = c then [] :: splitOnChar c xs
    else
      match splitOnChar c xs with
      | [] => [[x]]
      | h :: t => (x :: h) :: t

/-- Python-style whitespace test for rstrip (the ASCII whitespace characters;
the written rows end in a digit, so nothing is ever stripped from them). -/
def isPyWs (c : Char) : Bool :=
  c == ' ' || c == '\t' || c == '\n' || c == '\r' || c == '\x0b' || c == '\x0c'

/-- Model of str.rstrip(): drop trailing whitespace. -/
def rstripChars (cs : Chars) : Chars := (cs.reverse.dropWhile isPyWs).reverse

/-- One row written by __saveCandidatePrimerPairs (getPrimerPairs.py 135-144):
p1.contig, p1.seq, p1.start, p2.seq, p2.end and the product length, tab
separated and newline terminated. -/
def saveRowChars (t : Primer × Primer × Int) : Chars :=
  intercalateChar '\t'
    [t.1.contig.data, seqChars t.1.seq, intChars t.1.start,
     seqChars t.2.1.seq, intChars t.2.1.endPos, intChars t.2.2] ++ ['\n']

/-- Embedding of __saveCandidatePrimerPairs (getPrimerPairs.py 109-144): the
file content after all queued tuples are written in order. -/
def saveCandidatePrimerPairs (pairs : List (Primer × Primer × Int)) : Chars :=
  pairs.flatMap saveRowChars

/-- One line parsed by __loadCandidatePrimerPairs (getPrimerPairs.py 174-191):
split on tabs; fwd = Primer(row[1], row[0], int(row[2]), len(row[1])); rev =
Primer(revcomp(row[3]), row[0], int(row[4]), len(row[3])); length = int(row[5]). -/
def parseRowChars (line : Chars) : Option (Primer × Primer × Int) :=
  let row := splitOnChar '\t' line
  match row[0]?, row[1]?, row[2]?, row[3]?, row[4]?, row[5]? with
  | some c0, some c1, some c2, some c3, some c4, some c5 =>
    (match charsSeq? c1, parseIntChars c2, charsSeq? c3, parseIntChars c4,
           parseIntChars c5 with
     | some fseq, some fstart, some rseq, some rend, some plen =>
       some (⟨fseq, String.mk c0, fstart, (fseq.length : Int)⟩,
             ⟨revComp rseq, String.mk c0, rend, (rseq.length : Int)⟩, plen)
     | _, _, _, _, _ => none)
  | _, _, _, _, _, _ => none

/-- Line loop of __loadCandidatePrimerPairs (getPrimerPairs.py 168-191):
rstrip each line, skip empties, parse the rest in order. -/
def loadLines : List Chars → Option (List (Primer × Primer × Int))
  | [] => some []
  | l :: ls =>
    if (rstripChars l).isEmpty then loadLines ls
    else
      match parseRowChars (rstripChars l), loadLines ls with
      | some t, some ts => some (t :: ts)
      | _, _ => none

/-- Embedding of __loadCandidatePrimerPairs (getPrimerPairs.py 147-193). -/
def loadCandidatePrimerPairs (file : Chars) : Option (List (Primer × Primer × Int)) :=
  loadLines (splitOnChar '\n' file)

/-- The tuple actually reconstructed by load after save, for comparison with
the written tuple: forward unchanged (with length recomputed from the
sequence), reverse rebuilt from the written fields as
Primer(revcomp(p2.seq), p1.contig, p2.end, len(p2.seq)). -/
def loadedOf (t : Primer × Primer × Int) : Primer × Primer × Int :=
  (⟨t.1.seq, t.1.contig, t.1.start, (t.1.seq.length : Int)⟩,
   ⟨revComp t.2.1.seq, t.1.contig, t.2.1.endPos, (t.2.1.seq.length : Int)⟩,
   t.2.2)

/-
Component C8: the cross-genome pair validator
(src/bin/getPrimerPairs.py, __restructureCandidateKmerData lines 348-366 and
__getAllSharedPrimerPairs lines 369-431).
-/

/-- Embedding of __restructureCandidateKmerData (getPrimerPairs.py 348-366):
a dict from primer sequence to Primer, later entries overwriting earlier. -/
def restructureOne (contigMap : List (String × List Primer)) : List (Sq × Primer) :=
  contigMap.foldl
    (fun out e => e.2.foldl (fun out' p => upsertReplace out' p.seq p) out) []

/-- One genome's check in __getAllSharedPrimerPairs (getPrimerPairs.py
404-424): look up both sequences (outer None models the KeyError on a missing
key); on the same contig orient by start and keep the length
rev.end - fwd.start + 1 when it lies in range(minProdLen, maxProdLen + 1). -/
def checkGenomeLen (m : List (Sq × Primer)) (minP maxP : Int) (p1 p2 : Primer) :
    Option (Option Int) :=
  match lookupA m p1.seq, lookupA m p2.seq with
  | some k1, some k2 =>
    some
      (if k1.contig = k2.contig then
        let fwd := if k1.start < k2.start then k1 else k2
        let rev := if k1.start < k2.start then k2 else k1
        let len := rev.endPos - fwd.start + 1
        if minP ≤ len ∧ len ≤ maxP then some len else none
      else none)
  | _, _ => none

/-- Loop over the remaining genomes for one candidate pair: collects the
(genome, length) entries added to out[(p1,p2)], crashing if any lookup does. -/
def remEntries (minP maxP : Int) (p1 p2 : Primer) :
    List (String × List (Sq × Primer)) → Option (List (String × Int))
  | [] => some []
  | (n, m) :: rest =>
    match checkGenomeLen m minP maxP p1 p2 with
    | none => none
    | some r =>
      match remEntries minP maxP p1 p2 rest with
      | none => none
      | some es =>
        some
          (match r with
           | some len => (n, len) :: es
           | none => es)

/-- The restructured per-genome lookup tables for the remaining genomes:
set(candidateKmers.keys()) minus firstName, in dict insertion order, each
mapped through __restructureCandidateKmerData. -/
def kmapsOf (ck : List (String × List (String × List Primer))) (firstName : String) :
    List (String × List (Sq × Primer)) :=
  ((ck.map Prod.fst).erase firstName).map
    (fun n => (n, restructureOne ((lookupA ck n).getD [])))

/-- Accumulation loop of __getAllSharedPrimerPairs (getPrimerPairs.py
399-424): out[(p1,p2)] = {firstName: length} followed by the surviving
remaining-genome entries. -/
def buildOutGo (firstName : String) (kmaps : List (String × List (Sq × Primer)))
    (minP maxP : Int) (acc : List ((Primer × Primer) × List (String × Int))) :
    List (Primer × Primer × Int) → Option (List ((Primer × Primer) × List (String × Int)))
  | [] => some acc
  | t :: rest =>
    match remEntries minP maxP t.1 t.2.1 kmaps with
    | none => none
    | some es =>
      buildOutGo firstName kmaps minP maxP
        (upsertReplace acc (t.1, t.2.1) ((firstName, t.2.2) :: es)) rest

/-- Embedding of __getAllSharedPrimerPairs (getPrimerPairs.py 369-431).  The
outer None models the KeyError of remaining.remove(firstName) when firstName
is not a genome, or of a failed sequence lookup.  The final filter drops every
pair whose entry count is below the number of genomes. -/
def getAllSharedPrimerPairs (firstName : String)
    (ck : List (String × List (String × List Primer)))
    (cps : List (Primer × Primer × Int)) (minP maxP : Int) :
    Option (List ((Primer × Primer) × List (String × Int))) :=
  if firstName ∈ ck.map Prod.fst then
    match buildOutGo firstName (kmapsOf ck firstName) minP maxP [] cps with
    | none => none
    | some out => some (out.filter (fun e => !decide (e.2.length < ck.length)))
  else none

/-- Claim-side recorder, following the words of the spec (section 4.8): the
same keep condition, but recording per ingroup genome the pair
(contig, product length) of that genome; for the reference genome the contig
is the one the forward primer sits on.  This definition exists only to be
compared against the source embedding above. -/
def specRemEntries (minP maxP : Int) (p1 p2 : Primer) :
    List (String × List (Sq × Primer)) → Option (List (String × (String × Int)))
  | [] => some []
  | (n, m) :: rest =>
    match checkGenomeLen m minP maxP p1 p2 with
    | none => none
    | some r =>
      match specRemEntries minP maxP p1 p2 rest with
      | none => none
      | some es =>
        some
          (match r, lookupA m p1.seq with
           | some len, some k1 => (n, (k1.contig, len)) :: es
           | _, _ => es)

/-- Claim-side recorder at the pair-list level (spec section 4.8). -/
def getAllSharedPairsSpecRec (firstName : String)
    (ck : List (String × List (String × List Primer)))
    (cps : List (Primer × Primer × Int)) (minP maxP : Int) :
    Option (List ((Primer × Primer) × List (String × (String × Int)))) :=
  if firstName ∈ ck.map Prod.fst then
    (cps.foldl
      (fun acc t =>
        match acc with
        | none => none
        | some a =>
          match specRemEntries minP maxP t.1 t.2.1 (kmapsOf ck firstName) with
          | none => none
          | some es =>
            if es.length = (kmapsOf ck firstName).length then
              some (upsertReplace a (t.1, t.2.1) ((firstName, (t.1.contig, t.2.2)) :: es))
            else some a)
      (some []))
  else none

/-
Component C4: the shared-kmer resolver
(src/bin/getCandidateKmers.py, __getSharedKmers lines 9-46 and the outgroup
subtraction of getAllCandidatePrimers lines 240-253).  getUniqueKmers and
getAllKmers live in bin/utilities.py (not in src/), so the resolver is
embedded as a function of the per-genome unique-k-mer maps and of the
already-collected outgroup k-mer set.
-/

/-- Value stored for a unique k-mer: (contig, start, length). -/
abbrev KmerVal := String × Int × Int

/-- The sharedKmers accumulation loop of __getSharedKmers (getCandidateKmers.py
25-35), verbatim: if sharedKmers == set() the keys are added wholesale,
otherwise sharedKmers is intersected with the keys.  Note the emptiness test,
not a first-iteration test. -/
def sharedKmersFold (maps : List (String × List (Sq × KmerVal))) : List Sq :=
  maps.foldl
    (fun sh e =>
      if sh.isEmpty then (e.2.map Prod.fst).foldl insertNew sh
      else sh.filter (fun s => s ∈ e.2.map Prod.fst))
    []

/-- Embedding of __getSharedKmers (getCandidateKmers.py 9-46) given the
per-genome unique-k-mer maps: compute sharedKmers, then prune every genome's
map to keys in sharedKmers (popping the bad keys preserves order). -/
def getSharedKmers (maps : List (String × List (Sq × KmerVal))) :
    List (String × List (Sq × KmerVal)) :=
  let shared := sharedKmersFold maps
  maps.map (fun e => (e.1, e.2.filter (fun kv => kv.1 ∈ shared)))

/-- Outgroup subtraction of getAllCandidatePrimers (getCandidateKmers.py
249-253): pop every key present in the outgroup k-mer set. -/
def subtractOutgroup (outKmers : List Sq) (maps : List (String × List (Sq × KmerVal))) :
    List (String × List (Sq × KmerVal)) :=
  maps.map (fun e => (e.1, e.2.filter (fun kv => !decide (kv.1 ∈ outKmers))))

/-- The per-genome candidate key sets after the resolver and the outgroup
subtraction (the state claim C6 talks about). -/
def candidateKeyMaps (maps : List (String × List (Sq × KmerVal))) (outKmers : List Sq) :
    List (String × List (Sq × KmerVal)) :=
  subtractOutgroup outKmers (getSharedKmers maps)

/-
Component C9: the outgroup eliminator
(src/bin/removeOutgroupPrimers.py: __getAllKmers lines 11-58,
__getOutgroupProductSizes lines 61-108, __processOutgroupResults lines
111-152, _removeOutgroupPrimers lines 155-251).
-/

/-- Enumeration of __getAllKmers (removeOutgroupPrimers.py 35-52): for every
start, every k-length in [minLen, maxLen] still inside the contig yields the
slice and its start.  The early termination once start + minLen exceeds the
contig merely skips starts that would contribute nothing.  Python computes
min(krange) and so raises when minLen > maxLen; the theorems assume
minLen ≤ maxLen. -/
def getAllKmersPairs (contig : Sq) (minLen maxLen : Nat) : List (Sq × Int) :=
  (List.range contig.length).flatMap
    (fun start =>
      if contig.length < start + minLen then []
      else
        ((List.range (maxLen + 1 - minLen)).map (fun j => j + minLen)).filterMap
          (fun klen =>
            if contig.length < start + klen then none
            else some ((contig.drop start).take klen, (start : Int))))

/-- Start positions recorded for one k-mer sequence, in enumeration order
(the list kmers[kmer] built by appending). -/
def kmerStarts (contig : Sq) (minLen maxLen : Nat) (s : Sq) : List Int :=
  (getAllKmersPairs contig minLen maxLen).filterMap
    (fun p => if p.1 = s then some p.2 else none)

/-- Dict lookup into the table of __getAllKmers: None exactly when the
sequence never occurs (the KeyError case of __getOutgroupProductSizes). -/
def kmersLookup (contig : Sq) (minLen maxLen : Nat) (s : Sq) : Option (List Int) :=
  let l := kmerStarts contig minLen maxLen s
  if l.isEmpty then none else some l

/-- Embedding of __getOutgroupProductSizes (removeOutgroupPrimers.py 61-108):
forward orientation when fwd.seq and revcomp(rev.seq) are both present,
otherwise reverse orientation when revcomp(fwd.seq) and rev.seq are, else no
products; then all strictly positive r + len(rev) - f (forward) or
f + len(fwd) - r (reverse), as a set in insertion order. -/
def getOutgroupProductSizes (kl : Sq → Option (List Int)) (fwd rev : Primer) :
    List Int :=
  match kl fwd.seq, kl (revComp rev.seq) with
  | some fStarts, some rStarts =>
    (fStarts.flatMap (fun f => rStarts.map (fun r => r + rev.length - f))).foldl
      (fun out x => if x > 0 then insertNew out x else out) []
  | _, _ =>
    match kl (revComp fwd.seq), kl rev.seq with
    | some fStarts, some rStarts =>
      (fStarts.flatMap (fun f => rStarts.map (fun r => f + fwd.length - r))).foldl
        (fun out x => if x > 0 then insertNew out x else out) []
    | _, _ => []

/-- Tuple stored in an outgroupProducts set: (contig id, pcr length, bin pair);
the bin pair written by this stage is always the empty tuple, modelled []. -/
structure OGTuple where
  contig : String
  prodLen : Int
  binPair : List Int
deriving DecidableEq

/-- The null product ("NA", 0, ()). -/
def nullProduct : OGTuple := ⟨"NA", 0, []⟩

/-- Length column of a processed outgroup cell: an int for a single product,
a comma-joined string for several. -/
inductive CellLen where
  | int (n : Int)
  | str (s : String)
deriving DecidableEq

/-- Per-genome value stored in the pairs dict: (contig, length, bin pair). -/
structure OutVal where
  contig : String
  clen : CellLen
  binPair : List Int
deriving DecidableEq

/-- An entry of the pairs dict: the primer pair and its per-genome values. -/
structure PairEntry where
  fwd : Primer
  rev : Primer
  info : List (String × OutVal)
deriving DecidableEq

/-- State of the elimination loop of _removeOutgroupPrimers: the surviving
pairs dict and the outgroupProducts dict. -/
structure ElimSt where
  pairs : List PairEntry
  ogp : List (String × List ((Primer × Primer) × List OGTuple))

/-- Ensures outgroupProducts[name][(fwd,rev)] exists
(removeOutgroupPrimers.py 204). -/
def tblInit (tbl : List ((Primer × Primer) × List OGTuple)) (k : Primer × Primer) :
    List ((Primer × Primer) × List OGTuple) :=
  if (lookupA tbl k).isSome then tbl else tbl ++ [(k, [])]

/-- Set-update of outgroupProducts[name][(fwd,rev)] with new tuples
(removeOutgroupPrimers.py 211 and 228). -/
def tblAdd (tbl : List ((Primer × Primer) × List OGTuple)) (k : Primer × Primer)
    (xs : List OGTuple) : List ((Primer × Primer) × List OGTuple) :=
  tbl.map (fun e => if e.1 = k then (e.1, xs.foldl insertNew e.2) else e)

/-- Per-pair body of the contig loop (removeOutgroupPrimers.py 202-228):
init the products set, compute the product sizes, then either record the null
product, pop the pair on a disallowed length, or record the products. -/
def contigStep (minLen maxLen : Nat) (disallowed : List Int) (cid : String) (cseq : Sq)
    (acc : List PairEntry × List ((Primer × Primer) × List OGTuple)) (e : PairEntry) :
    List PairEntry × List ((Primer × Primer) × List OGTuple) :=
  let tbl := tblInit acc.2 (e.fwd, e.rev)
  let products := getOutgroupProductSizes (kmersLookup cseq minLen maxLen) e.fwd e.rev
  if products.isEmpty then (acc.1 ++ [e], tblAdd tbl (e.fwd, e.rev) [nullProduct])
  else if products.any (fun len => decide (len ∈ disallowed)) then (acc.1, tbl)
  else (acc.1 ++ [e], tblAdd tbl (e.fwd, e.rev) (products.map (fun len => ⟨cid, len, []⟩)))

/-- Per-genome body of the elimination loop (removeOutgroupPrimers.py
185-228): skipped when no pairs remain (the break); otherwise every contig is
processed against the currently surviving pairs and the genome's products
table is appended to outgroupProducts. -/
def genomeStep (minLen maxLen : Nat) (disallowed : List Int) (st : ElimSt)
    (g : String × List (String × Sq)) : ElimSt :=
  if st.pairs.isEmpty then st
  else
    let r :=
      g.2.foldl
        (fun acc c => acc.1.foldl (contigStep minLen maxLen disallowed c.1 c.2) ([], acc.2))
        (st.pairs, [])
    ⟨r.1, st.ogp ++ [(g.1, r.2)]⟩

/-- The elimination phase of _removeOutgroupPrimers over all outgroup genomes. -/
def eliminateOutgroup (minLen maxLen : Nat) (disallowed : List Int)
    (outgroup : List (String × List (String × Sq))) (pairs0 : List PairEntry) : ElimSt :=
  outgroup.foldl (genomeStep minLen maxLen disallowed) ⟨pairs0, []⟩

/-- Conversion of a stored tuple into a pairs-dict value. -/
def cellOfTuple (t : OGTuple) : OutVal := ⟨t.contig, CellLen.int t.prodLen, t.binPair⟩

/-- Multi-product cell (removeOutgroupPrimers.py 144-152): comma-joined
contigs and lengths with an empty bin pair. -/
def joinCells (result : List OGTuple) : OutVal :=
  ⟨String.intercalate "," (result.map (fun t => t.contig)),
   CellLen.str (String.intercalate "," (result.map (fun t => toString t.prodLen))),
   []⟩

/-- Per-genome step of __processOutgroupResults (removeOutgroupPrimers.py
122-152): a singleton set is stored as is; otherwise the null product is
removed and a remaining singleton is stored, the rest being comma-joined.
None models the KeyError when the genome's table has no entry for the pair. -/
def processPairGenome (tbl : List ((Primer × Primer) × List OGTuple))
    (k : Primer × Primer) : Option OutVal :=
  match lookupA tbl k with
  | none => none
  | some result =>
    match result with
    | [t] => some (cellOfTuple t)
    | _ =>
      match result.erase nullProduct with
      | [t] => some (cellOfTuple t)
      | r2 => some (joinCells r2)

/-- Python dict assignment pairs[pair][name] = cell. -/
def updateCell (info : List (String × OutVal)) (name : String) (c : OutVal) :
    List (String × OutVal) :=
  if (lookupA info name).isSome then
    info.map (fun e => if e.1 = name then (name, c) else e)
  else info ++ [(name, c)]

/-- Inner loop of __processOutgroupResults over the outgroup genomes. -/
def processNames (k : Primer × Primer) :
    List (String × List ((Primer × Primer) × List OGTuple)) →
    List (String × OutVal) → Option (List (String × OutVal))
  | [], info => some info
  | (name, tbl) :: rest, info =>
    match processPairGenome tbl k with
    | none => none
    | some c => processNames k rest (updateCell info name c)

/-- Outer loop of __processOutgroupResults over the surviving pairs. -/
def processAllPairs (ogp : List (String × List ((Primer × Primer) × List OGTuple))) :
    List PairEntry → Option (List PairEntry)
  | [] => some []
  | e :: rest =>
    match processNames (e.fwd, e.rev) ogp e.info, processAllPairs ogp rest with
    | some info', some rest' => some (⟨e.fwd, e.rev, info'⟩ :: rest')
    | _, _ => none

/-- The RuntimeError message of _removeOutgroupPrimers. -/
def noPairsErrMsg : String := "failed to find primer pairs that are absent in the outgroup"

/-- Marker for the KeyError that __processOutgroupResults raises when an
outgroup genome's table lacks an entry (reachable only for an outgroup genome
with no contigs). -/
def keyErrMsg : String := "KeyError"

/-- Embedding of _removeOutgroupPrimers (removeOutgroupPrimers.py 155-251):
eliminate against every outgroup genome, raise RuntimeError when no pair
survives, otherwise augment the surviving pairs with the processed outgroup
results. -/
def removeOutgroupPrimers (minLen maxLen : Nat) (disallowed : List Int)
    (outgroup : List (String × List (String × Sq))) (pairs0 : List PairEntry) :
    Except String (List PairEntry) :=
  let st := eliminateOutgroup minLen maxLen disallowed outgroup pairs0
  if st.pairs.isEmpty then Except.error noPairsErrMsg
  else
    match processAllPairs st.ogp st.pairs with
    | some res => Except.ok res
    | none => Except.error keyErrMsg

/-
The final writer (src/bin/main.py, __writePrimerPairs lines 306-362) and the
ordering claim C8.  Rows are modelled structurally (a list of typed cells)
rather than as rendered strings: the claim under scrutiny concerns the order
of the rows, which is independent of cell rendering.
-/

/-- One cell of an output row. -/
inductive OutCell where
  | strCell (s : String)
  | seqCell (s : Sq)
  | ratCell (q : ℚ)
  | intCell (n : Int)
deriving DecidableEq

/-- Rounding to one decimal place (Python round(x, 1); Python rounds ties to
even, the model rounds ties up - the difference plays no part in the ordering
claim). -/
def round1 (q : ℚ) : ℚ := (round (q * 10) : ℚ) / 10

/-- Writer input: a pairs dict entry with its per-genome row cells.  The
per-genome values of the final pairs dict are tuples that row.extend unpacks;
they are modelled as the cell lists they contribute. -/
abbrev PairRow := (Primer × Primer) × List (String × List OutCell)

/-- Header row of __writePrimerPairs (main.py 319-339): the six fixed headers
followed by name_contig and name_length for each genome name. -/
def headerRowOf (names : List String) : List OutCell :=
  ([OutCell.strCell "fwd_seq", OutCell.strCell "fwd_Tm", OutCell.strCell "fwd_GC",
    OutCell.strCell "rev_seq", OutCell.strCell "rev_Tm", OutCell.strCell "rev_GC"]) ++
    names.foldl
      (fun acc n => acc ++ [OutCell.strCell (n ++ "_contig"), OutCell.strCell (n ++ "_length")])
      []

/-- Data row for one pair (main.py 349-361): the six primer cells followed by
the per-genome cells in names order (a genome missing from a pair's dict
raises in Python; the model contributes nothing, and the theorems never rely
on that corner). -/
def rowOf (TmOf : Sq → ℚ) (names : List String) (e : PairRow) : List OutCell :=
  ([OutCell.seqCell e.1.1.seq, OutCell.ratCell (round1 (TmOf e.1.1.seq)),
    OutCell.ratCell (round1 (gcPercent e.1.1.seq)),
    OutCell.seqCell e.1.2.seq, OutCell.ratCell (round1 (TmOf e.1.2.seq)),
    OutCell.ratCell (round1 (gcPercent e.1.2.seq))]) ++
    names.foldl (fun acc n => acc ++ ((lookupA e.2 n).getD [])) []

/-- Embedding of __writePrimerPairs (main.py 306-362): the genome-name order
is taken from the first pair's dict, the header row is written first, and the
pair loop iterates the dict in insertion order. -/
def writePrimerPairsRows (TmOf : Sq → ℚ) (pairs : List PairRow) : List (List OutCell) :=
  let names := ((pairs.head?.map (fun e => e.2.map Prod.fst)).getD [])
  headerRowOf names :: pairs.foldl (fun acc e => acc ++ [rowOf TmOf names e]) []

/-- The order in which the pair loop of __writePrimerPairs emits the pairs. -/
def writeEmissionOrder (pairs : List PairRow) : List (Primer × Primer) :=
  pairs.foldl (fun acc e => acc ++ [e.1]) []

/-- Strict lexicographic order on character lists by code point. -/
def charsLtB : Chars → Chars → Bool
  | _, [] => false
  | [], _ :: _ => true
  | a :: as_, b :: bs =>
    if a.val < b.val then true
    else if b.val < a.val then false
    else charsLtB as_ bs

/-- Strict lexicographic order on strings. -/
def strLtB (a b : String) : Bool := charsLtB a.data b.data

/-- The ordering key demanded by claim C8: lexicographic on
(fwd.contig, fwd.start, rev.start, fwd.seq, rev.seq). -/
def pairKeyLeB (x y : Primer × Primer) : Bool :=
  if x.1.contig ≠ y.1.contig then strLtB x.1.contig y.1.contig
  else if x.1.start ≠ y.1.start then decide (x.1.start < y.1.start)
  else if x.2.start ≠ y.2.start then decide (x.2.start < y.2.start)
  else if x.1.seq ≠ y.1.seq then seqLtB x.1.seq y.1.seq
  else if x.2.seq ≠ y.2.seq then seqLtB x.2.seq y.2.seq
  else true

/-
Concrete inputs used by counterexamples and witnesses.
-/

/-- The smallest-product bound of the source scan for bins a (upstream) and b
(downstream): (b[0].start + minLen) - (a[-1].end - minLen). -/
def scanSmallest (minLen : Int) (a b : List Primer) : Int :=
  (firstStartD b + minLen) - (lastEndD a - minLen)

/-- The largest-product bound of the source scan: b[-1].end - a[0].start. -/
def scanLargest (a b : List Primer) : Int :=
  lastEndD b - firstStartD a

/-- The (genome, product length) entries that the remaining-genome loop of
__getAllSharedPrimerPairs records for one candidate pair, assuming every
lookup succeeds: one entry per genome whose two looked-up primers share a
contig and whose product length lies in the allowed range. -/
def genomeEntriesOf (km : List (String × List (Sq × Primer))) (minP maxP : Int)
    (p1 p2 : Primer) : List (String × Int) :=
  km.filterMap
    (fun nm => ((checkGenomeLen nm.2 minP maxP p1 p2).bind id).map (fun len => (nm.1, len)))

/-- A pair passes one outgroup contig when none of its product sizes there is
disallowed (the keep condition of the per-contig loop of
_removeOutgroupPrimers). -/
def passContigB (minLen maxLen : Nat) (disallowed : List Int) (cseq : Sq)
    (e : PairEntry) : Bool :=
  !(getOutgroupProductSizes (kmersLookup cseq minLen maxLen) e.fwd e.rev).any
    (fun len => decide (len ∈ disallowed))

/-- A pair passes one outgroup genome when it passes all its contigs. -/
def passGenomeB (minLen maxLen : Nat) (disallowed : List Int)
    (g : String × List (String × Sq)) (e : PairEntry) : Bool :=
  g.2.all (fun c => passContigB minLen maxLen disallowed c.2 e)

/-- Ingroup genome name of the C2 and C9 examples. -/
def c2Gin : String := "gin"

/-- One pairs-dict entry for the C2 and C9 examples. -/
def c2Entry : PairEntry :=
  ⟨⟨[Nuc.A], "q", 0, 1⟩, ⟨[Nuc.G], "q", 5, 1⟩, [(c2Gin, ⟨"c0", CellLen.int 6, []⟩)]⟩

/-- One-genome outgroup for the C2 example: a single two-base contig. -/
def c2Outgroup : List (String × List (String × Sq)) :=
  [("og1", [("oc1", [Nuc.A, Nuc.C])])]

/-- First genome name of the C6 example. -/
def c6G1 : String := "g1"

/-- Second genome name of the C6 example. -/
def c6G2 : String := "g2"

/-- Third genome name of the C6 example. -/
def c6G3 : String := "g3"

/-- Per-genome unique-k-mer maps for the C6 failing input: genome g1 holds
only the k-mer A while g2 and g3 hold only C, so the running intersection
becomes empty after g2 and the emptiness test then mistakes g3 for the first
iteration. -/
def c6Maps : List (String × List (Sq × KmerVal)) :=
  [(c6G1, [([Nuc.A], ("c1", 0, 1))]),
   (c6G2, [([Nuc.C], ("c1", 0, 1))]),
   (c6G3, [([Nuc.C], ("c1", 0, 1))])]

/-- Genome names of the C1 example. -/
def c1G1 : String := "g1"

/-- Second genome name of the C1 example. -/
def c1G2 : String := "g2"

/-- Forward primer of the C1 example on the reference genome. -/
def c1P1 : Primer := ⟨[Nuc.G, Nuc.T, Nuc.A, Nuc.C], "c1", 0, 4⟩

/-- Reverse primer of the C1 example on the reference genome. -/
def c1P2 : Primer := ⟨[Nuc.C, Nuc.C, Nuc.G, Nuc.A], "c1", 10, 4⟩

/-- Candidate k-mers of the C1 example parameterized by the second genome's
contig name: the same two sequences sit on that contig at starts 5 and 15. -/
def c1CK (x : String) : List (String × List (String × List Primer)) :=
  [(c1G1, [("c1", [c1P1, c1P2])]),
   (c1G2, [(x, [⟨c1P1.seq, x, 5, 4⟩, ⟨c1P2.seq, x, 15, 4⟩])])]

/-- The candidate pair list of the C1 example. -/
def c1CPS : List (Primer × Primer × Int) := [(c1P1, c1P2, 14)]

/-- Contig name used by the C7 example. -/
def c7Contig : String := "ct"

/-- A written tuple for the C7 example: the reverse primer's sequence is not
its own reverse complement. -/
def c7Pair : Primer × Primer × Int :=
  (⟨[Nuc.G, Nuc.C], c7Contig, 3, 2⟩, ⟨[Nuc.A, Nuc.A, Nuc.C], c7Contig, 10, 3⟩, 12)

/-- Contig name used by the C5 example. -/
def c5Contig : String := "c5"

/-- Binned candidates for the C5 counterexample: the first bin's last primer
ends at 16 while its maximum primer end is 19, so the source's pessimistic
bound differs from the claim's. -/
def c5Binned : List (String × List (Nat × List Primer)) :=
  [(c5Contig,
    [(0, [⟨[Nuc.A], c5Contig, 0, 20⟩, ⟨[Nuc.C], c5Contig, 1, 16⟩]),
     (1, [⟨[Nuc.G], c5Contig, 30, 16⟩])])]

/-- Contig name used by the C4 example. -/
def c4Contig : String := "chr"

/-- Example candidates for C4: sorted by start; the second primer is shorter
than the first, so its end (16) is below the running maximum end (19). -/
def c4Input : List Primer :=
  [⟨[Nuc.A], c4Contig, 0, 20⟩, ⟨[Nuc.C], c4Contig, 1, 16⟩, ⟨[Nuc.G], c4Contig, 17, 16⟩]

/-- Contig name used by the C10 witness. -/
def c10Contig : String := "c1"

/-- Example candidates for the C10 witness: one contig, two overlapping
primers plus a separate one (non-empty, sorted by start). -/
def c10Input : List (String × List Primer) :=
  [(c10Contig,
    [⟨[Nuc.A, Nuc.C], c10Contig, 0, 16⟩, ⟨[Nuc.C, Nuc.G], c10Contig, 5, 16⟩,
     ⟨[Nuc.G, Nuc.T], c10Contig, 40, 16⟩])]

/-- First-inserted pair of the C8 counterexample: forward start 5. -/
def c8PairA : PairRow :=
  ((⟨[Nuc.A, Nuc.C], "c", 5, 2⟩, ⟨[Nuc.G, Nuc.T], "c", 30, 2⟩), [])

/-- Second-inserted pair of the C8 counterexample: forward start 0, so the
claimed key orders it before c8PairA. -/
def c8PairB : PairRow :=
  ((⟨[Nuc.A, Nuc.G], "c", 0, 2⟩, ⟨[Nuc.C, Nuc.T], "c", 20, 2⟩), [])

/-- Writer input of the C8 counterexample, in dict insertion order. -/
def c8Input : List PairRow := [c8PairA, c8PairB]

/-
Theorems.  Shared helper lemmas come first, then one theorem (plus witness or
counterexample) per claim.
-/

/-- Lookup skips an entry with a different key. -/
theorem lookupA_cons_ne {α β : Type} [DecidableEq α] (k' : α) (v : β)
    (rest : List (α × β)) (k : α) (h : k' ≠ k) :
    lookupA ((k', v) :: rest) k = lookupA rest k := by
  unfold lookupA
  rw [List.find?_cons_of_neg]
  simp [h]

/-- Lookup hits an entry with the matching key. -/
theorem lookupA_cons_eq {α β : Type} [DecidableEq α] (k : α) (v : β)
    (rest : List (α × β)) :
    lookupA ((k, v) :: rest) k = some v := by
  unfold lookupA
  rw [List.find?_cons_of_pos _ (by simp)]
  rfl

/-- Cons-commutation of upsertAppend past an entry with a different key. -/
theorem upsertAppend_cons_ne {α β : Type} [DecidableEq α] (k' : α) (v : List β)
    (rest : List (α × List β)) (k : α) (x : β) (h : k' ≠ k) :
    upsertAppend ((k', v) :: rest) k x = (k', v) :: upsertAppend rest k x := by
  unfold upsertAppend
  rw [lookupA_cons_ne k' v rest k h]
  by_cases hr : (lookupA rest k).isSome
  · simp only [hr, if_pos]
    simp [h]
  · simp only [hr, if_neg, Bool.false_eq_true, not_false_iff]
    simp

/-- Upserting into a dict whose last entry carries the key appends in place. -/
theorem upsertAppend_last {α β : Type} [DecidableEq α] (done : List (α × List β))
    (k : α) (v : List β) (x : β) (hk : k ∉ done.map Prod.fst) :
    upsertAppend (done ++ [(k, v)]) k x = done ++ [(k, v ++ [x])] := by
  induction done with
  | nil =>
    simp only [List.nil_append]
    unfold upsertAppend
    rw [lookupA_cons_eq]
    simp
  | cons e rest ih =>
    have hne : e.1 ≠ k := by
      intro hekk
      exact hk (by simp [hekk.symm])
    have hk' : k ∉ rest.map Prod.fst := fun hm => hk (by simp [hm])
    calc upsertAppend ((e :: rest) ++ [(k, v)]) k x
        = upsertAppend ((e.1, e.2) :: (rest ++ [(k, v)])) k x := by simp
      _ = (e.1, e.2) :: upsertAppend (rest ++ [(k, v)]) k x :=
          upsertAppend_cons_ne e.1 e.2 (rest ++ [(k, v)]) k x hne
      _ = (e.1, e.2) :: (rest ++ [(k, v ++ [x])]) := by rw [ih hk']
      _ = (e :: rest) ++ [(k, v ++ [x])] := by simp

/-- The candidate fold of __binOverlappingPrimers, related to the last-end
walk: the bins dict always consists of finished bins (with keys below the
current bin number) followed by the open bin. -/
theorem binFold_bins (cs : List Primer) :
    ∀ (done : List (Nat × List Primer)) (k : Nat) (cur : List Primer) (pe : Int),
      (∀ key ∈ done.map Prod.fst, key < k) →
      ((cs.foldl binStep ⟨k, some pe, done ++ [(k, cur)]⟩).bins).map Prod.snd
        = done.map Prod.snd ++ binWalkLast pe cur cs := by
  induction cs with
  | nil =>
    intro done k cur pe _
    simp [binWalkLast]
  | cons c cs ih =>
    intro done k cur pe hlt
    rw [List.foldl_cons]
    by_cases hc : c.start < pe
    · have hk : k ∉ done.map Prod.fst := fun hmem => absurd (hlt k hmem) (lt_irrefl k)
      have hstep : binStep ⟨k, some pe, done ++ [(k, cur)]⟩ c
          = ⟨k, some c.endPos, done ++ [(k, cur ++ [c])]⟩ := by
        show (if c.start < pe then _ else _) = _
        rw [if_pos hc, upsertAppend_last done k cur c hk]
      rw [hstep, ih done k (cur ++ [c]) c.endPos hlt]
      simp [binWalkLast, hc]
    · have hstep : binStep ⟨k, some pe, done ++ [(k, cur)]⟩ c
          = ⟨k + 1, some c.endPos, (done ++ [(k, cur)]) ++ [(k + 1, [c])]⟩ := by
        show (if c.start < pe then _ else _) = _
        rw [if_neg hc]
      have hlt' : ∀ key ∈ (done ++ [(k, cur)]).map Prod.fst, key < k + 1 := by
        intro key hkey
        simp only [List.map_append, List.mem_append] at hkey
        rcases hkey with hkey | hkey
        · exact Nat.lt_succ_of_lt (hlt key hkey)
        · simp at hkey
          omega
      rw [hstep, ih (done ++ [(k, cur)]) (k + 1) [c] c.endPos hlt']
      simp [binWalkLast, hc]

/-- The bins of __binOverlappingPrimers for one contig are precisely the
last-end walk's bins. -/
theorem binOne_map_snd (cands : List Primer) :
    (binOne cands).map Prod.snd = binsByLastEnd cands := by
  cases cands with
  | nil => rfl
  | cons c cs =>
    have h0 : binStep ⟨0, none, []⟩ c = ⟨0, some c.endPos, [] ++ [(0, [c])]⟩ := by
      simp [binStep]
    unfold binOne
    rw [List.foldl_cons, h0, binFold_bins cs [] 0 [c] c.endPos (by simp)]
    rfl

/-- Claim C4, counterexample: on the start-sorted list c4Input the source walk
(prev_end := cand.end) opens a new bin at the third primer (17 ≥ 16), while
the claim's walk (prev_end := max(prev_end, cand.end) = 19) would keep it in
the first bin, so the produced bins differ from the claim's bins. -/
theorem c4_counterexample :
    List.Pairwise (fun a b : Primer => a.start ≤ b.start) c4Input ∧
    (binOne c4Input).map Prod.snd ≠ binsByMaxEnd c4Input := by
  constructor
  · decide
  · decide

/-- Claim C4, amended: for every per-contig candidate list, the overlap walk
starts a new bin exactly when cand.start ≥ prev_end and otherwise appends the
candidate to the current bin, where prev_end is updated to cand.end - the end
of the last primer appended - rather than to max(prev_end, cand.end). -/
theorem c4_amended (candidates : List (String × List Primer)) :
    (binOverlappingPrimers candidates).map (fun e => (e.1, e.2.map Prod.snd))
      = candidates.map (fun e => (e.1, binsByLastEnd e.2)) := by
  unfold binOverlappingPrimers
  rw [List.map_map]
  simp [Function.comp_def, binOne_map_snd]

/-- Lookup succeeds exactly when the key occurs. -/
theorem lookupA_isSome_iff {α β : Type} [DecidableEq α] (l : List (α × β)) (k : α) :
    (lookupA l k).isSome ↔ k ∈ l.map Prod.fst := by
  unfold lookupA
  rw [Option.isSome_map', List.find?_isSome]
  constructor
  · rintro ⟨e, he, hk⟩
    exact List.mem_map.mpr ⟨e, he, by simpa using hk⟩
  · rintro hm
    obtain ⟨e, he, hk⟩ := List.mem_map.mp hm
    exact ⟨e, he, by simp [hk]⟩

/-- Appending to an absent key appends a fresh entry. -/
theorem upsertAppend_not_mem {α β : Type} [DecidableEq α] (l : List (α × List β))
    (k : α) (x : β) (h : k ∉ l.map Prod.fst) :
    upsertAppend l k x = l ++ [(k, [x])] := by
  unfold upsertAppend
  rw [if_neg]
  rw [Option.isSome_iff_ne_none]
  simp only [ne_eq, not_not]
  rw [← Option.not_isSome_iff_eq_none] at *
  exact fun hs => h ((lookupA_isSome_iff l k).mp hs)

/-- Updating entries with other keys is a no-op. -/
theorem map_update_noop {α β : Type} [DecidableEq α] (l : List (α × β)) (k : α)
    (f : α × β → α × β) (h : k ∉ l.map Prod.fst) :
    l.map (fun e => if e.1 = k then f e else e) = l := by
  induction l with
  | nil => rfl
  | cons e rest ih =>
    have h1 : e.1 ≠ k := fun hek => h (by simp [hek])
    have h2 : k ∉ rest.map Prod.fst := fun hm => h (by simp [hm])
    simp [h1, ih h2]

/-- Appending to the key at the head, when the key occurs nowhere else. -/
theorem upsertAppend_cons_eq {α β : Type} [DecidableEq α] (k : α) (v : List β)
    (rest : List (α × List β)) (x : β) (h : k ∉ rest.map Prod.fst) :
    upsertAppend ((k, v) :: rest) k x = (k, v ++ [x]) :: rest := by
  unfold upsertAppend
  rw [if_pos (by rw [lookupA_cons_eq]; rfl)]
  simp only [List.map_cons, if_pos rfl]
  rw [map_update_noop rest k _ h]
  simp

/-- Keys of an upsertAppend. -/
theorem upsertAppend_map_fst {α β : Type} [DecidableEq α] (l : List (α × List β))
    (k : α) (x : β) :
    (upsertAppend l k x).map Prod.fst
      = if k ∈ l.map Prod.fst then l.map Prod.fst else l.map Prod.fst ++ [k] := by
  unfold upsertAppend
  by_cases hm : k ∈ l.map Prod.fst
  · rw [if_pos ((lookupA_isSome_iff l k).mpr hm), if_pos hm, List.map_map]
    apply List.map_congr_left
    intro e _
    by_cases he : e.1 = k <;> simp [he]
  · rw [if_neg (fun hs => hm ((lookupA_isSome_iff l k).mp hs)), if_neg hm]
    simp

/-- upsertAppend preserves distinctness of keys. -/
theorem upsertAppend_fst_nodup {α β : Type} [DecidableEq α] (l : List (α × List β))
    (k : α) (x : β) (h : (l.map Prod.fst).Nodup) :
    ((upsertAppend l k x).map Prod.fst).Nodup := by
  rw [upsertAppend_map_fst]
  by_cases hm : k ∈ l.map Prod.fst
  · rwa [if_pos hm]
  · rw [if_neg hm]
    rw [List.nodup_append]
    refine ⟨h, List.nodup_singleton k, ?_⟩
    intro a ha hak
    simp only [List.mem_singleton] at hak
    subst hak
    exact hm ha

/-- upsertAppend preserves non-emptiness of all stored lists. -/
theorem upsertAppend_snd_ne_nil {α β : Type} [DecidableEq α] (l : List (α × List β))
    (k : α) (x : β) (h : ∀ e ∈ l, e.2 ≠ []) :
    ∀ e ∈ upsertAppend l k x, e.2 ≠ [] := by
  intro e he
  unfold upsertAppend at he
  by_cases hs : (lookupA l k).isSome
  · rw [if_pos hs] at he
    obtain ⟨e', he', hee⟩ := List.mem_map.mp he
    by_cases hk : e'.1 = k
    · rw [if_pos hk] at hee
      subst hee
      simp
    · rw [if_neg hk] at hee
      exact hee ▸ h e' he'
  · rw [if_neg hs] at he
    rcases List.mem_append.mp he with he | he
    · exact h e he
    · simp at he
      subst he
      simp

/-- The stored lists of an upsertAppend are, flattened, a permutation of the
old flattening with x appended. -/
theorem upsertAppend_flatten_perm {α β : Type} [DecidableEq α] (l : List (α × List β))
    (k : α) (x : β) (h : (l.map Prod.fst).Nodup) :
    List.Perm (((upsertAppend l k x).map Prod.snd).flatten)
      (((l.map Prod.snd).flatten) ++ [x]) := by
  induction l with
  | nil =>
    rw [upsertAppend_not_mem [] k x (by simp)]
    simp
  | cons e rest ih =>
    obtain ⟨hk', hnd⟩ := List.nodup_cons.mp h
    by_cases hek : e.1 = k
    · have hkr : k ∉ rest.map Prod.fst := by
        intro hm
        exact hk' (hek ▸ hm)
      have : upsertAppend (e :: rest) k x = (k, e.2 ++ [x]) :: rest := by
        calc upsertAppend (e :: rest) k x
            = upsertAppend ((k, e.2) :: rest) k x := by rw [← hek]
          _ = (k, e.2 ++ [x]) :: rest := upsertAppend_cons_eq k e.2 rest x hkr
      rw [this]
      simp only [List.map_cons, List.flatten_cons]
      have h1 : (e.2 ++ [x]) ++ (rest.map Prod.snd).flatten
          = e.2 ++ ([x] ++ (rest.map Prod.snd).flatten) := by rw [List.append_assoc]
      have h2 : List.Perm (e.2 ++ ([x] ++ (rest.map Prod.snd).flatten))
          (e.2 ++ ((rest.map Prod.snd).flatten ++ [x])) :=
        (List.perm_append_comm).append_left e.2
      have h3 : e.2 ++ ((rest.map Prod.snd).flatten ++ [x])
          = (e.2 ++ (rest.map Prod.snd).flatten) ++ [x] := by rw [List.append_assoc]
      exact h1 ▸ (h3 ▸ h2)
    · have : upsertAppend (e :: rest) k x = e :: upsertAppend rest k x := by
        have he : e = (e.1, e.2) := rfl
        rw [he, upsertAppend_cons_ne e.1 e.2 rest k x hek]
      rw [this]
      simp only [List.map_cons, List.flatten_cons]
      have h2 : List.Perm (e.2 ++ ((upsertAppend rest k x).map Prod.snd).flatten)
          (e.2 ++ ((rest.map Prod.snd).flatten ++ [x])) := (ih hnd).append_left e.2
      have h3 : e.2 ++ ((rest.map Prod.snd).flatten ++ [x])
          = (e.2 ++ (rest.map Prod.snd).flatten) ++ [x] := by rw [List.append_assoc]
      exact h3 ▸ h2

/-- The last-end walk concatenates back to the candidates it consumed. -/
theorem binWalkLast_flatten (cs : List Primer) :
    ∀ (pe : Int) (cur : List Primer), (binWalkLast pe cur cs).flatten = cur ++ cs := by
  induction cs with
  | nil => intro pe cur; simp [binWalkLast]
  | cons c cs ih =>
    intro pe cur
    unfold binWalkLast
    by_cases hc : c.start < pe
    · rw [if_pos hc, ih c.endPos (cur ++ [c])]
      simp
    · rw [if_neg hc]
      simp only [List.flatten_cons, ih c.endPos [c]]
      simp

/-- Concatenating the last-end bins gives back the input list. -/
theorem binsByLastEnd_flatten (cands : List Primer) :
    (binsByLastEnd cands).flatten = cands := by
  cases cands with
  | nil => rfl
  | cons c cs =>
    show (binWalkLast c.endPos [c] cs).flatten = c :: cs
    rw [binWalkLast_flatten cs c.endPos [c]]
    rfl

/-- Every bin of the last-end walk is non-empty once the open bin is. -/
theorem binWalkLast_ne_nil (cs : List Primer) :
    ∀ (pe : Int) (cur : List Primer), cur ≠ [] →
      ∀ b ∈ binWalkLast pe cur cs, b ≠ [] := by
  induction cs with
  | nil =>
    intro pe cur hcur b hb
    simp only [binWalkLast, List.mem_singleton] at hb
    exact hb ▸ hcur
  | cons c cs ih =>
    intro pe cur hcur b hb
    unfold binWalkLast at hb
    by_cases hc : c.start < pe
    · rw [if_pos hc] at hb
      exact ih c.endPos (cur ++ [c]) (by simp) b hb
    · rw [if_neg hc] at hb
      rcases List.mem_cons.mp hb with hb | hb
      · exact hb ▸ hcur
      · exact ih c.endPos [c] (by simp) b hb

/-- Every bin produced by __binOverlappingPrimers for one contig is non-empty. -/
theorem binsByLastEnd_ne_nil (cands : List Primer) :
    ∀ b ∈ binsByLastEnd cands, b ≠ [] := by
  cases cands with
  | nil => intro b hb; simp [binsByLastEnd] at hb
  | cons c cs => exact binWalkLast_ne_nil cs c.endPos [c] (by simp)

/-- Cluster values flatten to a permutation of the clustered primers. -/
theorem clustersFold_flatten_perm (ps : List Primer) (m : Nat) :
    ∀ (acc : List (Sq × List Primer)), ((acc.map Prod.fst).Nodup) →
      List.Perm (((ps.foldl (fun a p => upsertAppend a (p.getMinimizer m) p) acc).map
        Prod.snd).flatten) (((acc.map Prod.snd).flatten) ++ ps) := by
  induction ps with
  | nil => intro acc _; simp
  | cons p ps ih =>
    intro acc hnd
    rw [List.foldl_cons]
    have hnd' : (((upsertAppend acc (p.getMinimizer m) p).map Prod.fst)).Nodup :=
      upsertAppend_fst_nodup acc _ p hnd
    have h1 := ih (upsertAppend acc (p.getMinimizer m) p) hnd'
    have h2 := upsertAppend_flatten_perm acc (p.getMinimizer m) p hnd
    refine h1.trans ?_
    refine (h2.append_right ps).trans ?_
    have : ((acc.map Prod.snd).flatten ++ [p]) ++ ps
        = (acc.map Prod.snd).flatten ++ (p :: ps) := by simp
    rw [this]

/-- The minimizer clustering of a bin neither drops nor duplicates primers. -/
theorem clustersOf_flatten_perm (m : Nat) (ps : List Primer) :
    List.Perm (((clustersOf m ps).map Prod.snd).flatten) ps := by
  have := clustersFold_flatten_perm ps m [] (by simp)
  simpa [clustersOf] using this

/-- Cluster values are non-empty. -/
theorem clustersFold_ne_nil (ps : List Primer) (m : Nat) :
    ∀ (acc : List (Sq × List Primer)), (∀ e ∈ acc, e.2 ≠ []) →
      ∀ e ∈ ps.foldl (fun a p => upsertAppend a (p.getMinimizer m) p) acc, e.2 ≠ [] := by
  induction ps with
  | nil => intro acc h; exact h
  | cons p ps ih =>
    intro acc h
    rw [List.foldl_cons]
    exact ih (upsertAppend acc (p.getMinimizer m) p)
      (upsertAppend_snd_ne_nil acc _ p h)

/-- Every same-minimizer class is non-empty. -/
theorem clustersOf_ne_nil (m : Nat) (ps : List Primer) :
    ∀ e ∈ clustersOf m ps, e.2 ≠ [] :=
  clustersFold_ne_nil ps m [] (by simp)

/-- numberFrom only decorates with bin numbers. -/
theorem numberFrom_map_snd (bs : List (List Primer)) :
    ∀ n, (numberFrom n bs).map Prod.snd = bs := by
  induction bs with
  | nil => intro n; rfl
  | cons b bs ih => intro n; simp [numberFrom, ih (n + 1)]

/-- Pointwise permutations lift through flatMap. -/
theorem flatMap_perm_congr {α β : Type} (l : List α) (f g : α → List β)
    (h : ∀ a ∈ l, List.Perm (f a) (g a)) :
    List.Perm (l.flatMap f) (l.flatMap g) := by
  induction l with
  | nil => simp
  | cons a l ih =>
    simp only [List.flatMap_cons]
    exact (h a (by simp)).append (ih (fun b hb => h b (by simp [hb])))

/-- Flatten of a flatMap. -/
theorem flatten_flatMap {α β : Type} (l : List α) (f : α → List (List β)) :
    (l.flatMap f).flatten = l.flatMap (fun a => (f a).flatten) := by
  induction l with
  | nil => rfl
  | cons a l ih => simp [List.flatMap_cons, ih]

/-- Minimizer splitting neither drops nor duplicates primers: the flattened
bins are a permutation of the flattened input bins. -/
theorem minimizeOverlaps_flatten_perm (m : Nat) (bins : List (Nat × List Primer)) :
    List.Perm (((minimizeOverlaps m bins).map Prod.snd).flatten)
      ((bins.map Prod.snd).flatten) := by
  unfold minimizeOverlaps
  rw [List.map_append, List.flatten_append, numberFrom_map_snd]
  rw [flatten_flatMap]
  have hsplit : List.Perm
      ((bins.filter (fun e => tooLongBin e.2)).flatMap
        (fun e => ((clustersOf m e.2).map Prod.snd).flatten))
      ((bins.filter (fun e => tooLongBin e.2)).flatMap (fun e => e.2)) :=
    flatMap_perm_congr _ _ _ (fun e _ => clustersOf_flatten_perm m e.2)
  refine (hsplit.append_left _).trans ?_
  have hpart : List.Perm
      (bins.filter (fun e => !tooLongBin e.2) ++ bins.filter (fun e => tooLongBin e.2))
      bins := by
    have := List.filter_append_perm (fun e : Nat × List Primer => !tooLongBin e.2) bins
    simpa using this
  have hflat : ∀ (l : List (Nat × List Primer)),
      (l.map Prod.snd).flatten = l.flatMap (fun e => e.2) := by
    intro l
    induction l with
    | nil => rfl
    | cons e l ih => simp [ih]
  rw [hflat, ← List.flatMap_append, hflat]
  exact hpart.flatMap_right (fun e => e.2)

/-- Minimizer splitting preserves non-emptiness of bins. -/
theorem minimizeOverlaps_ne_nil (m : Nat) (bins : List (Nat × List Primer))
    (h : ∀ e ∈ bins, e.2 ≠ []) :
    ∀ e ∈ minimizeOverlaps m bins, e.2 ≠ [] := by
  intro e he
  unfold minimizeOverlaps at he
  rcases List.mem_append.mp he with he | he
  · exact h e (List.mem_of_mem_filter he)
  · have h2 : e.2 ∈ (numberFrom (((bins.map Prod.fst).foldl max 0) + 1)
        ((bins.filter (fun e => tooLongBin e.2)).flatMap
          (fun e => (clustersOf m e.2).map Prod.snd))).map Prod.snd :=
      List.mem_map_of_mem Prod.snd he
    rw [numberFrom_map_snd] at h2
    obtain ⟨b, _, hb⟩ := List.mem_flatMap.mp h2
    obtain ⟨c, hc, hcb⟩ := List.mem_map.mp hb
    exact hcb ▸ clustersOf_ne_nil m b.2 c hc

/-- Claim C10: for every mapping of contigs to non-empty start-sorted primer
lists, overlap clustering followed by minimizer splitting partitions each
contig's primers - the flattened bins are a permutation of the contig's input
list (no primer dropped or duplicated) and every bin is non-empty. -/
theorem c10_partition (candidates : List (String × List Primer)) (minPrimerLen : Nat)
    (hne : ∀ e ∈ candidates, e.2 ≠ [])
    (hsort : ∀ e ∈ candidates, List.Pairwise (fun a b : Primer => a.start ≤ b.start) e.2) :
    List.Forall₂
      (fun (c : String × List Primer) (b : String × List (Nat × List Primer)) =>
        b.1 = c.1 ∧ List.Perm ((b.2.map Prod.snd).flatten) c.2 ∧ ∀ bin ∈ b.2, bin.2 ≠ [])
      candidates (binCandidatePrimers candidates minPrimerLen) := by
  unfold binCandidatePrimers binOverlappingPrimers
  rw [List.map_map, List.forall₂_map_right_iff, List.forall₂_same]
  intro e he
  refine ⟨rfl, ?_, ?_⟩
  · have h1 := minimizeOverlaps_flatten_perm (minPrimerLen / 2) (binOne e.2)
    rw [binOne_map_snd, binsByLastEnd_flatten] at h1
    exact h1
  · intro bin hbin
    refine minimizeOverlaps_ne_nil _ (binOne e.2) ?_ bin hbin
    intro e' he'
    have hmem : e'.2 ∈ (binOne e.2).map Prod.snd := List.mem_map_of_mem Prod.snd he'
    rw [binOne_map_snd] at hmem
    exact binsByLastEnd_ne_nil e.2 e'.2 hmem

/-- Witness for C10 at the concrete input c10Input. -/
theorem c10_witness :
    ((∀ e ∈ c10Input, e.2 ≠ []) ∧
      (∀ e ∈ c10Input, List.Pairwise (fun a b : Primer => a.start ≤ b.start) e.2)) ∧
    List.Forall₂
      (fun (c : String × List Primer) (b : String × List (Nat × List Primer)) =>
        b.1 = c.1 ∧ List.Perm ((b.2.map Prod.snd).flatten) c.2 ∧ ∀ bin ∈ b.2, bin.2 ≠ [])
      c10Input (binCandidatePrimers c10Input 16) :=
  ⟨⟨by decide, by decide⟩, c10_partition c10Input 16 (by decide) (by decide)⟩

/-- containsSub decides substring occurrence. -/
theorem containsSub_iff (text pat : Sq) : containsSub text pat = true ↔ pat <:+: text := by
  unfold containsSub
  rw [List.any_eq_true]
  constructor
  · rintro ⟨i, _, hp⟩
    obtain ⟨u, hu⟩ := List.isPrefixOf_iff_prefix.mp hp
    exact ⟨text.take i, u, by rw [List.append_assoc, hu, List.take_append_drop]⟩
  · rintro ⟨s, u, hsu⟩
    refine ⟨s.length, ?_, ?_⟩
    · rw [List.mem_range]
      have : s.length ≤ text.length := by
        rw [← hsu]
        simp
      omega
    · rw [List.isPrefixOf_iff_prefix]
      refine ⟨u, ?_⟩
      rw [← hsu, List.append_assoc]
      exact (List.drop_left s (pat ++ u)).symm

/-- The noLongRepeats check is exactly the absence of 4-base homopolymer runs. -/
theorem noLongRepeats_iff (p : Primer) :
    noLongRepeats p = true ↔ NoHomopolymerRun p.seq := by
  unfold noLongRepeats NoHomopolymerRun
  rw [Bool.not_eq_true']
  rw [List.any_eq_false]
  constructor
  · intro h b hin
    have hb : List.replicate 4 b ∈
        [List.replicate 4 Nuc.A, List.replicate 4 Nuc.T,
         List.replicate 4 Nuc.C, List.replicate 4 Nuc.G] := by
      cases b <;> simp
    exact (h _ hb) ((containsSub_iff p.seq (List.replicate 4 b)).mpr hin)
  · intro h r hr
    rcases List.mem_cons.mp hr with h1 | hr
    · exact h1 ▸ fun hc => h Nuc.A ((containsSub_iff _ _).mp hc)
    rcases List.mem_cons.mp hr with h1 | hr
    · exact h1 ▸ fun hc => h Nuc.T ((containsSub_iff _ _).mp hc)
    rcases List.mem_cons.mp hr with h1 | hr
    · exact h1 ▸ fun hc => h Nuc.C ((containsSub_iff _ _).mp hc)
    rcases List.mem_cons.mp hr with h1 | hr
    · exact h1 ▸ fun hc => h Nuc.G ((containsSub_iff _ _).mp hc)
    · simp at hr

/-- Length of the reverse complement. -/
theorem revComp_length (s : Sq) : (revComp s).length = s.length := by
  simp [revComp]

/-- A length-4 infix of a list is one of its length-4 slice windows. -/
theorem infix_four_iff_window (l w : Sq) :
    (w.length = 4 ∧ w <:+: l) ↔ ∃ i, i < l.length - 3 ∧ w = (l.drop i).take 4 := by
  constructor
  · rintro ⟨h4, s, u, hsu⟩
    have hlen : l.length = s.length + w.length + u.length := by
      rw [← hsu]
      simp
      omega
    refine ⟨s.length, by omega, ?_⟩
    have hdrop : l.drop s.length = w ++ u := by
      rw [← hsu, List.append_assoc]
      exact List.drop_left s (w ++ u)
    rw [hdrop]
    exact (List.take_left' h4).symm
  · rintro ⟨i, hi, hw⟩
    have h4 : w.length = 4 := by
      rw [hw, List.length_take, List.length_drop]
      omega
    refine ⟨h4, l.take i, (l.drop i).drop 4, ?_⟩
    rw [hw, List.append_assoc, List.take_append_drop, List.take_append_drop]

/-- The noIntraPrimerComplements check is exactly the claim's window property. -/
theorem noIntraPrimerComplements_iff (p : Primer) :
    noIntraPrimerComplements p = true ↔ NoIntraRevCompWindow p.seq := by
  unfold noIntraPrimerComplements NoIntraRevCompWindow
  rw [Bool.not_eq_true']
  rw [List.any_eq_false]
  constructor
  · intro h w h4 hwin hsub
    obtain ⟨i, hi, hw⟩ :=
      (infix_four_iff_window (revComp p.seq) w).mp ⟨h4, hwin⟩
    rw [revComp_length] at hi
    have h2 := h i (List.mem_range.mpr hi)
    rw [hw] at hsub
    exact h2 ((containsSub_iff _ _).mpr hsub)
  · intro h i hi hc
    rw [List.mem_range] at hi
    have hiw : i < (revComp p.seq).length - 3 := by
      rw [revComp_length]
      exact hi
    have hwp := (infix_four_iff_window (revComp p.seq)
      (((revComp p.seq).drop i).take 4)).mpr ⟨i, hiw, rfl⟩
    exact h _ hwp.1 hwp.2 ((containsSub_iff _ _).mp hc)

/-- A candidate passing all four checks is accepted on the spot. -/
theorem eval_cons_pass (TmOf : Sq → ℚ) (minGc maxGc minTm maxTm : ℚ)
    (contig : String) (start : Int) (t : Sq × Int) (rest : List (Sq × Int))
    (h : ClaimBiochemPass TmOf minGc maxGc minTm maxTm ⟨t.1, contig, start, t.2⟩) :
    evaluateKmersAtOnePosition TmOf minGc maxGc minTm maxTm contig start (t :: rest)
      = [⟨t.1, contig, start, t.2⟩] := by
  obtain ⟨hgc, htm, hrun, hwin⟩ := h
  have hB := (noLongRepeats_iff ⟨t.1, contig, start, t.2⟩).mpr hrun
  have hC := (noIntraPrimerComplements_iff ⟨t.1, contig, start, t.2⟩).mpr hwin
  obtain ⟨ts, tl⟩ := t
  simp [evaluateKmersAtOnePosition, hgc, htm, hB, hC]

/-- A candidate failing one of the four checks is skipped. -/
theorem eval_cons_fail (TmOf : Sq → ℚ) (minGc maxGc minTm maxTm : ℚ)
    (contig : String) (start : Int) (t : Sq × Int) (rest : List (Sq × Int))
    (h : ¬ ClaimBiochemPass TmOf minGc maxGc minTm maxTm ⟨t.1, contig, start, t.2⟩) :
    evaluateKmersAtOnePosition TmOf minGc maxGc minTm maxTm contig start (t :: rest)
      = evaluateKmersAtOnePosition TmOf minGc maxGc minTm maxTm contig start rest := by
  obtain ⟨ts, tl⟩ := t
  by_cases hA : (minGc ≤ gcPercent ts ∧ gcPercent ts ≤ maxGc) ∧
      (minTm ≤ TmOf ts ∧ TmOf ts ≤ maxTm)
  · by_cases hB : noLongRepeats ⟨ts, contig, start, tl⟩ = true
    · by_cases hC : noIntraPrimerComplements ⟨ts, contig, start, tl⟩ = true
      · exact absurd
          ⟨hA.1, hA.2, (noLongRepeats_iff _).mp hB, (noIntraPrimerComplements_iff _).mp hC⟩ h
      · simp [evaluateKmersAtOnePosition, hA, hB, hC]
    · simp [evaluateKmersAtOnePosition, hA, hB]
  · simp [evaluateKmersAtOnePosition, hA]

/-- Claim C3: for every (contig, start) group the filter appends at most one
Primer, namely the first candidate in input order whose GC percent and Tm lie
in range, that contains no run of four identical bases, and such that no
length-4 window of its reverse complement occurs in the primer; all
candidates after the accepted one are discarded. -/
theorem c3_first_passing (TmOf : Sq → ℚ) (minGc maxGc minTm maxTm : ℚ)
    (contig : String) (start : Int) (posL : List (Sq × Int)) :
    (evaluateKmersAtOnePosition TmOf minGc maxGc minTm maxTm contig start posL = [] ∧
      ∀ t ∈ posL, ¬ ClaimBiochemPass TmOf minGc maxGc minTm maxTm ⟨t.1, contig, start, t.2⟩) ∨
    (∃ l1 t l2, posL = l1 ++ t :: l2 ∧
      (∀ u ∈ l1, ¬ ClaimBiochemPass TmOf minGc maxGc minTm maxTm ⟨u.1, contig, start, u.2⟩) ∧
      ClaimBiochemPass TmOf minGc maxGc minTm maxTm ⟨t.1, contig, start, t.2⟩ ∧
      evaluateKmersAtOnePosition TmOf minGc maxGc minTm maxTm contig start posL
        = [⟨t.1, contig, start, t.2⟩]) := by
  induction posL with
  | nil =>
    left
    exact ⟨rfl, by simp⟩
  | cons t rest ih =>
    by_cases hP : ClaimBiochemPass TmOf minGc maxGc minTm maxTm ⟨t.1, contig, start, t.2⟩
    · right
      exact ⟨[], t, rest, by simp, by simp, hP,
        eval_cons_pass TmOf minGc maxGc minTm maxTm contig start t rest hP⟩
    · have hskip := eval_cons_fail TmOf minGc maxGc minTm maxTm contig start t rest hP
      rcases ih with ⟨he, hall⟩ | ⟨l1, u, l2, hsplit, hfail, hpass, heval⟩
      · left
        refine ⟨by rw [hskip]; exact he, ?_⟩
        intro v hv
        rcases List.mem_cons.mp hv with hv | hv
        · exact hv ▸ hP
        · exact hall v hv
      · right
        refine ⟨t :: l1, u, l2, by rw [hsplit]; simp, ?_, hpass, by rw [hskip]; exact heval⟩
        intro v hv
        rcases List.mem_cons.mp hv with hv | hv
        · exact hv ▸ hP
        · exact hfail v hv

/-- Unfolding of the inner loop on a cons cell. -/
theorem scanB_cons (minLen minProd maxProd : Int) (b1 b2 : List Primer)
    (rest : List (List Primer)) :
    scanB minLen minProd maxProd b1 (b2 :: rest) =
      if maxProd < scanSmallest minLen b1 b2 then []
      else if scanLargest b1 b2 < minProd then scanB minLen minProd maxProd b1 rest
      else (b1, b2) :: scanB minLen minProd maxProd b1 rest := rfl

/-- Membership characterization of the inner bin2 loop: a pair is submitted
for bin2 = rest[j] exactly when no bin2 up to index j tripped the break
(smallest > maxProd) and rest[j] itself passed the largest-bound check. -/
theorem scanB_mem_iff (minLen minProd maxProd : Int) (b1 x y : List Primer)
    (rest : List (List Primer)) :
    (x, y) ∈ scanB minLen minProd maxProd b1 rest ↔
      x = b1 ∧ ∃ j, j < rest.length ∧ y = rest.getD j [] ∧
        (∀ l, l ≤ j → scanSmallest minLen b1 (rest.getD l []) ≤ maxProd) ∧
        minProd ≤ scanLargest b1 (rest.getD j []) := by
  induction rest with
  | nil =>
    simp [scanB]
  | cons b2 rest ih =>
    have hstep : ∀ j, (b2 :: rest).getD (j + 1) [] = rest.getD j [] := fun j => rfl
    rw [scanB_cons]
    by_cases h1 : maxProd < scanSmallest minLen b1 b2
    · rw [if_pos h1]
      simp only [List.not_mem_nil, false_iff]
      rintro ⟨-, j, hj, hy, hall, hlg⟩
      have := hall 0 (Nat.zero_le j)
      simp only [List.getD_cons_zero] at this
      omega
    · rw [if_neg h1]
      by_cases h2 : scanLargest b1 b2 < minProd
      · rw [if_pos h2, ih]
        constructor
        · rintro ⟨hx, j, hj, hy, hall, hlg⟩
          refine ⟨hx, j + 1, by simpa using Nat.succ_lt_succ hj,
            by rw [hstep]; exact hy, ?_, by rw [hstep]; exact hlg⟩
          intro l hl
          cases l with
          | zero =>
            simp only [List.getD_cons_zero]
            omega
          | succ l =>
            rw [hstep]
            exact hall l (Nat.le_of_succ_le_succ hl)
        · rintro ⟨hx, j, hj, hy, hall, hlg⟩
          cases j with
          | zero =>
            simp only [List.getD_cons_zero] at hlg
            omega
          | succ j =>
            rw [hstep] at hy hlg
            refine ⟨hx, j, by simpa using Nat.lt_of_succ_lt_succ hj, hy, ?_, hlg⟩
            intro l hl
            have := hall (l + 1) (Nat.succ_le_succ hl)
            rw [hstep] at this
            exact this
      · rw [if_neg h2, List.mem_cons, Prod.ext_iff, ih]
        constructor
        · rintro (⟨hx, hy⟩ | ⟨hx, j, hj, hy, hall, hlg⟩)
          · refine ⟨hx, 0, by simp, by simpa using hy, ?_, ?_⟩
            · intro l hl
              have hl0 : l = 0 := Nat.le_zero.mp hl
              subst hl0
              simp only [List.getD_cons_zero]
              omega
            · simp only [List.getD_cons_zero]
              omega
          · refine ⟨hx, j + 1, by simpa using Nat.succ_lt_succ hj,
              by rw [hstep]; exact hy, ?_, by rw [hstep]; exact hlg⟩
            intro l hl
            cases l with
            | zero =>
              simp only [List.getD_cons_zero]
              omega
            | succ l =>
              rw [hstep]
              exact hall l (Nat.le_of_succ_le_succ hl)
        · rintro ⟨hx, j, hj, hy, hall, hlg⟩
          cases j with
          | zero =>
            simp only [List.getD_cons_zero] at hy
            exact Or.inl ⟨hx, hy⟩
          | succ j =>
            rw [hstep] at hy hlg
            refine Or.inr ⟨hx, j, by simpa using Nat.lt_of_succ_lt_succ hj, hy, ?_, hlg⟩
            intro l hl
            have := hall (l + 1) (Nat.succ_le_succ hl)
            rw [hstep] at this
            exact this

/-- Membership characterization of the full bin-pair scan over a sorted bin
list: (bl[i], bl[j]) is submitted exactly when i < j, no intermediate index in
(i, j] tripped the break bound, and index j passed the largest-product bound. -/
theorem scanAll_mem_iff (minLen minProd maxProd : Int) (x y : List Primer)
    (bl : List (List Primer)) :
    (x, y) ∈ scanAll minLen minProd maxProd bl ↔
      ∃ i j, i < j ∧ j < bl.length ∧ x = bl.getD i [] ∧ y = bl.getD j [] ∧
        (∀ l, i < l → l ≤ j → scanSmallest minLen (bl.getD i []) (bl.getD l []) ≤ maxProd) ∧
        minProd ≤ scanLargest (bl.getD i []) (bl.getD j []) := by
  induction bl with
  | nil =>
    simp [scanAll]
  | cons b rest ih =>
    have hstep : ∀ j, (b :: rest).getD (j + 1) [] = rest.getD j [] := fun j => rfl
    show (x, y) ∈ scanB minLen minProd maxProd b rest ++ scanAll minLen minProd maxProd rest ↔ _
    rw [List.mem_append, scanB_mem_iff, ih]
    constructor
    · rintro (⟨hx, j, hj, hy, hall, hlg⟩ | ⟨i, j, hij, hj, hx, hy, hall, hlg⟩)
      · refine ⟨0, j + 1, Nat.succ_pos j, by simpa using Nat.succ_lt_succ hj,
          by simpa using hx, by rw [hstep]; exact hy, ?_, by rw [hstep]; simpa using hlg⟩
        intro l hl0 hlj
        cases l with
        | zero => omega
        | succ l =>
          rw [hstep]
          simp only [List.getD_cons_zero]
          exact hall l (Nat.le_of_succ_le_succ hlj)
      · refine ⟨i + 1, j + 1, Nat.succ_lt_succ hij, by simpa using Nat.succ_lt_succ hj,
          by rw [hstep]; exact hx, by rw [hstep]; exact hy, ?_, by rw [hstep, hstep]; exact hlg⟩
        intro l hl0 hlj
        cases l with
        | zero => omega
        | succ l =>
          rw [hstep, hstep]
          exact hall l (Nat.lt_of_succ_lt_succ hl0) (Nat.le_of_succ_le_succ hlj)
    · rintro ⟨i, j, hij, hj, hx, hy, hall, hlg⟩
      cases j with
      | zero => omega
      | succ j =>
        cases i with
        | zero =>
          left
          rw [hstep] at hy
          refine ⟨by simpa using hx, j, by simpa using Nat.lt_of_succ_lt_succ hj, hy, ?_, ?_⟩
          · intro l hl
            have := hall (l + 1) (Nat.succ_pos l) (Nat.succ_le_succ hl)
            rw [hstep] at this
            simpa using this
          · rw [hstep] at hlg
            simpa using hlg
        | succ i =>
          right
          rw [hstep] at hx hy
          refine ⟨i, j, Nat.lt_of_succ_lt_succ hij, by simpa using Nat.lt_of_succ_lt_succ hj,
            hx, hy, ?_, ?_⟩
          · intro l hl0 hlj
            have := hall (l + 1) (Nat.succ_lt_succ hl0) (Nat.succ_le_succ hlj)
            rw [hstep, hstep] at this
            exact this
          · rw [hstep, hstep] at hlg
            exact hlg

/-- Claim C5, counterexample: in c5Binned (bins sorted by left endpoint) the
source computes smallest from the first bin's last primer end (16), giving
46 > 44 and an immediate break, while the claim's formula uses the maximum
end (19), giving 43 ≤ 44, so the claim's scan submits the bin pair the source
never submits. -/
theorem c5_counterexample :
    evaluateBinPairsScan c5Binned 16 1 44 = [] ∧
    evaluateBinPairsScan c5Binned 16 1 44 ≠ evaluateBinPairsClaim c5Binned 16 1 44 := by
  constructor
  · decide
  · decide

/-- Claim C5, amended: per contig, with bins sorted by the start of their
first primer, the scan computes smallest = (B.left + minLen) - (A.right -
minLen) and largest = B.right - A.left where B.left is the start of B's
first primer and A.right, B.right are the ends of the bins' last primers
(the primers with the greatest start - not necessarily the maximum end); it
stops scanning later bins exactly when smallest > maxProdLen, skips exactly
the bins with largest < minProdLen, and submits the pair otherwise. -/
theorem c5_amended (binned : List (String × List (Nat × List Primer)))
    (minLen minProd maxProd : Int) (x y : List Primer) :
    (x, y) ∈ evaluateBinPairsScan binned minLen minProd maxProd ↔
      ∃ e ∈ binned, ∃ i j, i < j ∧ j < (sortedBinLists e.2).length ∧
        x = (sortedBinLists e.2).getD i [] ∧ y = (sortedBinLists e.2).getD j [] ∧
        (∀ l, i < l → l ≤ j →
          scanSmallest minLen ((sortedBinLists e.2).getD i [])
            ((sortedBinLists e.2).getD l []) ≤ maxProd) ∧
        minProd ≤ scanLargest ((sortedBinLists e.2).getD i [])
          ((sortedBinLists e.2).getD j []) := by
  unfold evaluateBinPairsScan
  rw [List.mem_flatMap]
  constructor
  · rintro ⟨e, he, hmem⟩
    exact ⟨e, he, (scanAll_mem_iff minLen minProd maxProd x y (sortedBinLists e.2)).mp hmem⟩
  · rintro ⟨e, he, hchar⟩
    exact ⟨e, he, (scanAll_mem_iff minLen minProd maxProd x y (sortedBinLists e.2)).mpr hchar⟩

/-- Digit characters decode to their values. -/
theorem charDigit_digitChars (n : Nat) (h : n < 10) :
    charDigit? (digitChars.getD n '0') = some n := by
  interval_cases n <;> rfl

/-- Indexing the digit table always lands inside it. -/
theorem digitChars_getD_mem (k : Nat) : digitChars.getD k '0' ∈ digitChars := by
  by_cases h : k < 10
  · interval_cases k <;> decide
  · rw [List.getD_eq_default]
    · decide
    · simpa [digitChars] using Nat.le_of_not_lt h

/-- The decimal printer emits only digit characters. -/
theorem natCharsGo_mem_digit (fuel : Nat) :
    ∀ n, ∀ c ∈ natCharsGo fuel n, c ∈ digitChars := by
  induction fuel with
  | zero => intro n c hc; simp [natCharsGo] at hc
  | succ fuel ih =>
    intro n c hc
    unfold natCharsGo at hc
    by_cases hn : n < 10
    · rw [if_pos hn] at hc
      simp only [List.mem_singleton] at hc
      exact hc ▸ digitChars_getD_mem n
    · rw [if_neg hn] at hc
      rcases List.mem_append.mp hc with hc | hc
      · exact ih (n / 10) c hc
      · simp only [List.mem_singleton] at hc
        exact hc ▸ digitChars_getD_mem (n % 10)

/-- The decimal printer never emits the empty string. -/
theorem natCharsGo_ne_nil (fuel n : Nat) (h : n < fuel) : natCharsGo fuel n ≠ [] := by
  cases fuel with
  | zero => omega
  | succ fuel =>
    unfold natCharsGo
    by_cases hn : n < 10
    · rw [if_pos hn]
      simp
    · rw [if_neg hn]
      simp

/-- Folding the digit accumulator over a printed numeral. -/
theorem natCharsGo_foldl (fuel : Nat) :
    ∀ n a, n < fuel →
      (natCharsGo fuel n).foldl parseDigitStep (some a)
        = some (a * 10 ^ (natCharsGo fuel n).length + n) := by
  induction fuel with
  | zero => intro n a h; omega
  | succ fuel ih =>
    intro n a h
    unfold natCharsGo
    by_cases hn : n < 10
    · rw [if_pos hn]
      simp only [List.foldl_cons, List.foldl_nil, List.length_singleton]
      unfold parseDigitStep
      rw [charDigit_digitChars n hn]
      simp
    · rw [if_neg hn]
      have hdiv : n / 10 < fuel := by
        have h1 : n / 10 < n := Nat.div_lt_self (by omega) (by norm_num)
        omega
      rw [List.foldl_append, ih (n / 10) a hdiv]
      simp only [List.foldl_cons, List.foldl_nil]
      unfold parseDigitStep
      rw [charDigit_digitChars (n % 10) (Nat.mod_lt n (by norm_num))]
      simp only [List.length_append, List.length_singleton, pow_succ]
      have := Nat.div_add_mod n 10
      congr 1
      ring_nf
      omega

/-- Parsing a printed natural gives it back. -/
theorem parseNat_natChars (n : Nat) : parseNatChars (natChars n) = some n := by
  unfold parseNatChars natChars
  rw [if_neg (by simpa [List.isEmpty_iff] using natCharsGo_ne_nil (n + 1) n (by omega))]
  have := natCharsGo_foldl (n + 1) n 0 (by omega)
  simpa using this

/-- Parsing a printed integer gives it back. -/
theorem parseInt_intChars (i : Int) : parseIntChars (intChars i) = some i := by
  unfold intChars
  by_cases hi : i < 0
  · rw [if_pos hi]
    show parseIntChars ('-' :: natChars (-i).toNat) = some i
    simp only [parseIntChars, if_true]
    rw [parseNat_natChars]
    simp
    omega
  · rw [if_neg hi]
    obtain ⟨c, cs, hc⟩ : ∃ c cs, natChars i.toNat = c :: cs := by
      cases h : natChars i.toNat with
      | nil => exact absurd h (natCharsGo_ne_nil (i.toNat + 1) i.toNat (by omega))
      | cons c cs => exact ⟨c, cs, rfl⟩
    have hcd : c ∈ digitChars :=
      natCharsGo_mem_digit (i.toNat + 1) i.toNat c (by rw [← natChars, hc]; simp)
    have hcne : c ≠ '-' := by
      intro heq
      subst heq
      revert hcd
      decide
    rw [hc]
    show (if c = '-' then (parseNatChars cs).map (fun n => -(n : Int))
      else (parseNatChars (c :: cs)).map (fun n => (n : Int))) = some i
    rw [if_neg hcne, ← hc, parseNat_natChars]
    simp
    omega

/-- splitOnChar never returns the empty list of chunks. -/
theorem splitOnChar_ne_nil (c : Char) (l : Chars) : splitOnChar c l ≠ [] := by
  cases l with
  | nil => simp [splitOnChar]
  | cons x xs =>
    unfold splitOnChar
    by_cases hx : x = c
    · rw [if_pos hx]
      simp
    · rw [if_neg hx]
      cases splitOnChar c xs <;> simp

/-- A separator-free string is a single chunk. -/
theorem splitOnChar_not_mem (c : Char) (l : Chars) (h : c ∉ l) :
    splitOnChar c l = [l] := by
  induction l with
  | nil => rfl
  | cons x xs ih =>
    have hx : x ≠ c := fun he => h (by simp [he])
    have hxs : c ∉ xs := fun hm => h (by simp [hm])
    unfold splitOnChar
    rw [if_neg hx, ih hxs]

/-- Splitting a string that starts with a separator-free chunk. -/
theorem splitOnChar_append_cons (c : Char) (xs ys : Chars) (h : c ∉ xs) :
    splitOnChar c (xs ++ c :: ys) = xs :: splitOnChar c ys := by
  induction xs with
  | nil =>
    show splitOnChar c (c :: ys) = [] :: splitOnChar c ys
    conv_lhs => rw [splitOnChar]
    rw [if_pos rfl]
  | cons x xs ih =>
    have hx : x ≠ c := fun he => h (by simp [he])
    have hxs : c ∉ xs := fun hm => h (by simp [hm])
    show splitOnChar c (x :: (xs ++ c :: ys)) = (x :: xs) :: splitOnChar c ys
    conv_lhs => rw [splitOnChar]
    rw [if_neg hx, ih hxs]

/-- Splitting an intercalation recovers the separator-free fields. -/
theorem splitOnChar_intercalate (c : Char) (fields : List Chars)
    (h : ∀ f ∈ fields, c ∉ f) (hne : fields ≠ []) :
    splitOnChar c (intercalateChar c fields) = fields := by
  induction fields with
  | nil => exact absurd rfl hne
  | cons f fs ih =>
    cases fs with
    | nil =>
      show splitOnChar c f = [f]
      exact splitOnChar_not_mem c f (h f (by simp))
    | cons g gs =>
      show splitOnChar c (f ++ c :: intercalateChar c (g :: gs)) = f :: g :: gs
      rw [splitOnChar_append_cons c f _ (h f (by simp))]
      rw [ih (fun x hx => h x (by simp [hx])) (by simp)]

/-- rstrip leaves a string ending in a non-whitespace character unchanged. -/
theorem rstrip_append_singleton (l : Chars) (d : Char) (hd : isPyWs d = false) :
    rstripChars (l ++ [d]) = l ++ [d] := by
  unfold rstripChars
  rw [List.reverse_append]
  show ((d :: l.reverse).dropWhile isPyWs).reverse = l ++ [d]
  rw [List.dropWhile_cons_of_neg (by simp [hd])]
  simp

/-- Sequence rendering parses back. -/
theorem charsSeq_seqChars (s : Sq) : charsSeq? (seqChars s) = some s := by
  induction s with
  | nil => rfl
  | cons b bs ih =>
    show charsSeq? (nucChar b :: seqChars bs) = some (b :: bs)
    unfold charsSeq?
    rw [ih]
    cases b <;> rfl

/-- Characters of a rendered sequence. -/
theorem seqChars_mem (s : Sq) (c : Char) (h : c ∈ seqChars s) :
    c = 'A' ∨ c = 'C' ∨ c = 'G' ∨ c = 'T' := by
  obtain ⟨b, _, hb⟩ := List.mem_map.mp h
  cases b <;> rw [← hb] <;> simp [nucChar]

/-- Characters of a rendered integer: a minus sign or a digit. -/
theorem intChars_mem (i : Int) (c : Char) (h : c ∈ intChars i) :
    c = '-' ∨ c ∈ digitChars := by
  unfold intChars at h
  by_cases hi : i < 0
  · rw [if_pos hi] at h
    rcases List.mem_cons.mp h with h | h
    · exact Or.inl h
    · exact Or.inr (natCharsGo_mem_digit _ _ c h)
  · rw [if_neg hi] at h
    exact Or.inr (natCharsGo_mem_digit _ _ c h)

/-- Neither the tab nor the newline occurs in a rendered integer. -/
theorem intChars_no_sep (i : Int) (c : Char) (hc : c = '\t' ∨ c = '\n') :
    c ∉ intChars i := by
  intro h
  rcases intChars_mem i c h with h1 | h1 <;> rcases hc with hc | hc <;>
    subst hc <;> revert h1 <;> decide

/-- Neither the tab nor the newline occurs in a rendered sequence. -/
theorem seqChars_no_sep (s : Sq) (c : Char) (hc : c = '\t' ∨ c = '\n') :
    c ∉ seqChars s := by
  intro h
  rcases seqChars_mem s c h with h1 | h1 | h1 | h1 <;> rcases hc with hc | hc <;>
    subst hc <;> revert h1 <;> decide

/-- The rendered integer ends in a digit. -/
theorem intChars_ends_digit (i : Int) :
    ∃ ini d, intChars i = ini ++ [d] ∧ d ∈ digitChars := by
  have hnat : ∀ n : Nat, ∃ ini d, natChars n = ini ++ [d] ∧ d ∈ digitChars := by
    intro n
    unfold natChars natCharsGo
    by_cases hn : n < 10
    · rw [if_pos hn]
      exact ⟨[], _, rfl, digitChars_getD_mem n⟩
    · rw [if_neg hn]
      exact ⟨_, _, rfl, digitChars_getD_mem (n % 10)⟩
  unfold intChars
  by_cases hi : i < 0
  · rw [if_pos hi]
    obtain ⟨ini, d, hd, hdm⟩ := hnat (-i).toNat
    exact ⟨'-' :: ini, d, by rw [hd]; rfl, hdm⟩
  · rw [if_neg hi]
    exact hnat i.toNat

/-- Members of an intercalation are the separator or field characters. -/
theorem intercalateChar_mem (s : Char) (fields : List Chars) (c : Char)
    (h : c ∈ intercalateChar s fields) : c = s ∨ ∃ f ∈ fields, c ∈ f := by
  induction fields with
  | nil => simp [intercalateChar] at h
  | cons f fs ih =>
    cases fs with
    | nil =>
      exact Or.inr ⟨f, by simp, h⟩
    | cons g gs =>
      rcases List.mem_append.mp h with hf | hf
      · exact Or.inr ⟨f, by simp, hf⟩
      · rcases List.mem_cons.mp hf with hf | hf
        · exact Or.inl hf
        · rcases ih hf with h1 | ⟨f', hf', hc⟩
          · exact Or.inl h1
          · exact Or.inr ⟨f', by simp [List.mem_cons.mp hf'], hc⟩

/-- Digits are not whitespace. -/
theorem digit_not_ws (d : Char) (hd : d ∈ digitChars) : isPyWs d = false := by
  fin_cases hd <;> rfl

/-- Parsing one saved row (without its newline) reconstructs the loaded tuple. -/
theorem parseRow_save (t : Primer × Primer × Int) (htab : '\t' ∉ t.1.contig.data) :
    parseRowChars (intercalateChar '\t'
      [t.1.contig.data, seqChars t.1.seq, intChars t.1.start,
       seqChars t.2.1.seq, intChars t.2.1.endPos, intChars t.2.2])
      = some (loadedOf t) := by
  have hfields : ∀ f ∈ [t.1.contig.data, seqChars t.1.seq, intChars t.1.start,
      seqChars t.2.1.seq, intChars t.2.1.endPos, intChars t.2.2], '\t' ∉ f := by
    intro f hf
    rcases List.mem_cons.mp hf with h1 | hf
    · exact h1 ▸ htab
    rcases List.mem_cons.mp hf with h1 | hf
    · exact h1 ▸ seqChars_no_sep t.1.seq '\t' (Or.inl rfl)
    rcases List.mem_cons.mp hf with h1 | hf
    · exact h1 ▸ intChars_no_sep t.1.start '\t' (Or.inl rfl)
    rcases List.mem_cons.mp hf with h1 | hf
    · exact h1 ▸ seqChars_no_sep t.2.1.seq '\t' (Or.inl rfl)
    rcases List.mem_cons.mp hf with h1 | hf
    · exact h1 ▸ intChars_no_sep t.2.1.endPos '\t' (Or.inl rfl)
    rcases List.mem_cons.mp hf with h1 | hf
    · exact h1 ▸ intChars_no_sep t.2.2 '\t' (Or.inl rfl)
    · simp at hf
  unfold parseRowChars
  rw [splitOnChar_intercalate '\t' _ hfields (by simp)]
  simp only [List.getElem?_cons_zero, List.getElem?_cons_succ]
  rw [charsSeq_seqChars, charsSeq_seqChars, parseInt_intChars, parseInt_intChars,
    parseInt_intChars]
  rfl

/-- Claim C7, amended: loading what the saver wrote yields, for each written
tuple (fwd, rev, L), the same contig, forward sequence, forward start and
product length, but the reconstructed reverse primer carries the reverse
complement of the written reverse sequence and has start equal to the written
rev.end (and both primers' length fields are recomputed from their
sequences); save followed by load is loadedOf, not the identity. -/
theorem c7_amended (pairs : List (Primer × Primer × Int))
    (h : ∀ t ∈ pairs, '\t' ∉ t.1.contig.data ∧ '\n' ∉ t.1.contig.data) :
    loadCandidatePrimerPairs (saveCandidatePrimerPairs pairs)
      = some (pairs.map loadedOf) := by
  induction pairs with
  | nil => rfl
  | cons t ts ih =>
    obtain ⟨htab, hnl⟩ := h t (by simp)
    have hrest := ih (fun u hu => h u (by simp [hu]))
    have hLCnl : '\n' ∉ intercalateChar '\t'
        [t.1.contig.data, seqChars t.1.seq, intChars t.1.start,
         seqChars t.2.1.seq, intChars t.2.1.endPos, intChars t.2.2] := by
      intro hm
      rcases intercalateChar_mem '\t' _ '\n' hm with h1 | ⟨f, hf, hc⟩
      · exact absurd h1 (by decide)
      · rcases List.mem_cons.mp hf with h1 | hf
        · exact hnl (h1 ▸ hc)
        rcases List.mem_cons.mp hf with h1 | hf
        · exact seqChars_no_sep t.1.seq '\n' (Or.inr rfl) (h1 ▸ hc)
        rcases List.mem_cons.mp hf with h1 | hf
        · exact intChars_no_sep t.1.start '\n' (Or.inr rfl) (h1 ▸ hc)
        rcases List.mem_cons.mp hf with h1 | hf
        · exact seqChars_no_sep t.2.1.seq '\n' (Or.inr rfl) (h1 ▸ hc)
        rcases List.mem_cons.mp hf with h1 | hf
        · exact intChars_no_sep t.2.1.endPos '\n' (Or.inr rfl) (h1 ▸ hc)
        rcases List.mem_cons.mp hf with h1 | hf
        · exact intChars_no_sep t.2.2 '\n' (Or.inr rfl) (h1 ▸ hc)
        · simp at hf
    obtain ⟨ini, dd, hdec, hddm⟩ := intChars_ends_digit t.2.2
    have hpre : intercalateChar '\t'
        [t.1.contig.data, seqChars t.1.seq, intChars t.1.start,
         seqChars t.2.1.seq, intChars t.2.1.endPos, intChars t.2.2]
        = (t.1.contig.data ++ '\t' :: seqChars t.1.seq ++ '\t' :: intChars t.1.start
            ++ '\t' :: seqChars t.2.1.seq ++ '\t' :: intChars t.2.1.endPos ++ '\t' :: ini)
          ++ [dd] := by
      show t.1.contig.data ++ '\t' :: (seqChars t.1.seq ++ '\t' :: (intChars t.1.start
          ++ '\t' :: (seqChars t.2.1.seq ++ '\t' :: (intChars t.2.1.endPos
            ++ '\t' :: intChars t.2.2)))) = _
      rw [hdec]
      simp
    have hstrip : rstripChars (intercalateChar '\t'
        [t.1.contig.data, seqChars t.1.seq, intChars t.1.start,
         seqChars t.2.1.seq, intChars t.2.1.endPos, intChars t.2.2])
        = intercalateChar '\t'
          [t.1.contig.data, seqChars t.1.seq, intChars t.1.start,
           seqChars t.2.1.seq, intChars t.2.1.endPos, intChars t.2.2] := by
      rw [hpre]
      exact rstrip_append_singleton _ dd (digit_not_ws dd hddm)
    have hempty : (intercalateChar '\t'
        [t.1.contig.data, seqChars t.1.seq, intChars t.1.start,
         seqChars t.2.1.seq, intChars t.2.1.endPos, intChars t.2.2]).isEmpty = false := by
      rw [hpre]
      simp
    show loadLines (splitOnChar '\n' (saveRowChars t ++ saveCandidatePrimerPairs ts)) = _
    have hrow : saveRowChars t ++ saveCandidatePrimerPairs ts
        = intercalateChar '\t'
            [t.1.contig.data, seqChars t.1.seq, intChars t.1.start,
             seqChars t.2.1.seq, intChars t.2.1.endPos, intChars t.2.2]
          ++ '\n' :: saveCandidatePrimerPairs ts := by
      show (intercalateChar '\t' _ ++ ['\n']) ++ saveCandidatePrimerPairs ts = _
      rw [List.append_assoc]
      rfl
    rw [hrow, splitOnChar_append_cons '\n' _ _ hLCnl]
    simp only [loadLines]
    rw [hstrip, hempty]
    simp only [Bool.false_eq_true, if_false]
    rw [parseRow_save t htab]
    have hrest' : loadLines (splitOnChar '\n' (saveCandidatePrimerPairs ts))
        = some (ts.map loadedOf) := hrest
    rw [hrest']
    rfl

/-- Claim C7, counterexample: saving the tuple c7Pair and loading it back does
not return c7Pair - the loaded reverse primer carries the reverse complement
of the written sequence and the written end as its start, so save followed by
load is not the identity. -/
theorem c7_counterexample :
    loadCandidatePrimerPairs (saveCandidatePrimerPairs [c7Pair]) ≠ some [c7Pair] := by
  decide

/-- Witness for C7 (amended) at the concrete tuple c7Pair. -/
theorem c7_witness :
    (∀ t ∈ [c7Pair], '\t' ∉ t.1.contig.data ∧ '\n' ∉ t.1.contig.data) ∧
    loadCandidatePrimerPairs (saveCandidatePrimerPairs [c7Pair])
      = some ([c7Pair].map loadedOf) :=
  ⟨by decide, c7_amended [c7Pair] (by decide)⟩

/-- Replacing at an absent key appends a fresh entry. -/
theorem upsertReplace_not_mem {α β : Type} [DecidableEq α] (l : List (α × β))
    (k : α) (v : β) (h : k ∉ l.map Prod.fst) :
    upsertReplace l k v = l ++ [(k, v)] := by
  unfold upsertReplace
  rw [if_neg (fun hs => h ((lookupA_isSome_iff l k).mp hs))]

/-- A genome check succeeds when both lookups do. -/
theorem checkGenomeLen_isSome (m : List (Sq × Primer)) (minP maxP : Int)
    (p1 p2 : Primer) (h1 : (lookupA m p1.seq).isSome) (h2 : (lookupA m p2.seq).isSome) :
    (checkGenomeLen m minP maxP p1 p2).isSome := by
  obtain ⟨k1, hk1⟩ := Option.isSome_iff_exists.mp h1
  obtain ⟨k2, hk2⟩ := Option.isSome_iff_exists.mp h2
  unfold checkGenomeLen
  rw [hk1, hk2]
  rfl

/-- Under successful lookups the remaining-genome loop records exactly the
passing genomes' lengths. -/
theorem remEntries_eq (minP maxP : Int) (p1 p2 : Primer) :
    ∀ km : List (String × List (Sq × Primer)),
      (∀ nm ∈ km, (checkGenomeLen nm.2 minP maxP p1 p2).isSome) →
      remEntries minP maxP p1 p2 km = some (genomeEntriesOf km minP maxP p1 p2) := by
  intro km
  induction km with
  | nil => intro _; rfl
  | cons nm rest ih =>
    intro h
    obtain ⟨r, hr⟩ := Option.isSome_iff_exists.mp (h nm (by simp))
    have hrest := ih (fun x hx => h x (by simp [hx]))
    obtain ⟨n, m⟩ := nm
    show remEntries minP maxP p1 p2 ((n, m) :: rest) = _
    unfold remEntries
    rw [hr, hrest]
    unfold genomeEntriesOf
    rw [List.filterMap_cons]
    simp only [hr]
    cases r with
    | none => rfl
    | some len => rfl

/-- A filterMap preserves the length exactly when every element maps to some. -/
theorem filterMap_length_eq_iff {α β : Type} (l : List α) (f : α → Option β) :
    (l.filterMap f).length = l.length ↔ ∀ a ∈ l, (f a).isSome := by
  induction l with
  | nil => simp
  | cons a l ih =>
    rw [List.filterMap_cons]
    cases hf : f a with
    | none =>
      have hle := List.length_filterMap_le f l
      constructor
      · intro h
        simp only [List.length_cons] at h
        omega
      · intro h
        exfalso
        have hsome := h a (by simp)
        rw [hf] at hsome
        simp at hsome
    | some b =>
      simp only [List.length_cons, Nat.succ_inj]
      constructor
      · intro h v hv
        rcases List.mem_cons.mp hv with h1 | hv
        · simp [h1, hf]
        · exact (ih.mp h) v hv
      · intro h
        exact ih.mpr (fun v hv => h v (by simp [hv]))

/-- The accumulation loop of __getAllSharedPrimerPairs, under distinct pair
keys and successful lookups, appends one dict entry per candidate pair. -/
theorem buildOutGo_eq (firstName : String) (km : List (String × List (Sq × Primer)))
    (minP maxP : Int) (cps : List (Primer × Primer × Int)) :
    ∀ acc, (∀ t ∈ cps, (t.1, t.2.1) ∉ acc.map Prod.fst) →
      ((cps.map (fun t => (t.1, t.2.1))).Nodup) →
      (∀ t ∈ cps, ∀ nm ∈ km,
        (lookupA nm.2 t.1.seq).isSome ∧ (lookupA nm.2 t.2.1.seq).isSome) →
      buildOutGo firstName km minP maxP acc cps
        = some (acc ++ cps.map (fun t => ((t.1, t.2.1),
            (firstName, t.2.2) :: genomeEntriesOf km minP maxP t.1 t.2.1))) := by
  induction cps with
  | nil => intro acc _ _ _; simp [buildOutGo]
  | cons t rest ih =>
    intro acc hdisj hnd hsucc
    have hsome : ∀ nm ∈ km, (checkGenomeLen nm.2 minP maxP t.1 t.2.1).isSome := by
      intro nm hnm
      obtain ⟨h1, h2⟩ := hsucc t (by simp) nm hnm
      exact checkGenomeLen_isSome nm.2 minP maxP t.1 t.2.1 h1 h2
    show buildOutGo firstName km minP maxP acc (t :: rest) = _
    unfold buildOutGo
    rw [remEntries_eq minP maxP t.1 t.2.1 km hsome]
    change buildOutGo _ _ _ _ (upsertReplace acc (t.1, t.2.1)
      ((firstName, t.2.2) :: genomeEntriesOf km minP maxP t.1 t.2.1)) rest = _
    rw [upsertReplace_not_mem acc (t.1, t.2.1) _ (hdisj t (by simp))]
    have hnd' : ((rest.map (fun t => (t.1, t.2.1))).Nodup) :=
      (List.nodup_cons.mp hnd).2
    have hne : ∀ u ∈ rest, (u.1, u.2.1) ≠ (t.1, t.2.1) := by
      intro u hu he
      have hmem : (u.1, u.2.1) ∈ rest.map (fun t => (t.1, t.2.1)) :=
        List.mem_map_of_mem (fun t => (t.1, t.2.1)) hu
      rw [he] at hmem
      exact (List.nodup_cons.mp hnd).1 hmem
    have hdisj' : ∀ u ∈ rest, (u.1, u.2.1) ∉
        (acc ++ [((t.1, t.2.1), (firstName, t.2.2) ::
          genomeEntriesOf km minP maxP t.1 t.2.1)]).map Prod.fst := by
      intro u hu hm
      rw [List.map_append] at hm
      rcases List.mem_append.mp hm with hm | hm
      · exact hdisj u (by simp [hu]) hm
      · simp only [List.map_cons, List.map_nil, List.mem_singleton] at hm
        exact hne u hu hm
    rw [ih _ hdisj' hnd' (fun u hu nm hnm => hsucc u (by simp [hu]) nm hnm)]
    simp

/-- Filtering a mapped list is a filterMap over the original. -/
theorem filter_map_eq_filterMap {α β : Type} (l : List α) (f : α → β) (p : β → Bool) :
    (l.map f).filter p = l.filterMap (fun x => if p (f x) then some (f x) else none) := by
  induction l with
  | nil => rfl
  | cons a l ih =>
    rw [List.map_cons, List.filter_cons, List.filterMap_cons]
    by_cases h : p (f a)
    · rw [if_pos h, if_pos h, ih]
    · rw [if_neg h]
      rw [Bool.not_eq_true] at h
      rw [h, ih]
      simp

/-- filterMap is pointwise congruent on members. -/
theorem filterMap_congr_mem {α β : Type} (l : List α) (f g : α → Option β)
    (h : ∀ a ∈ l, f a = g a) : l.filterMap f = l.filterMap g := by
  induction l with
  | nil => rfl
  | cons a l ih =>
    rw [List.filterMap_cons, List.filterMap_cons, h a (by simp),
      ih (fun x hx => h x (by simp [hx]))]

/-- Equal truth values make equal booleans. -/
theorem bool_eq_of_iff {a b : Bool} (h : a = true ↔ b = true) : a = b := by
  cases a <;> cases b <;> simp_all

/-- Claim C1, amended: when the reference genome is among the candidate-kmer
genomes, the candidate pairs have distinct primer pairs, and both sequences
of every candidate pair are found in every other genome's lookup table,
__getAllSharedPrimerPairs keeps a pair if and only if in every other ingroup
genome the two looked-up primers lie on the same contig and the product
length rev.end - fwd.start + 1 (fwd being the looked-up primer with the
smaller start) lies in [minProdLen, maxProdLen]; for every surviving pair it
records, per ingroup genome, only that genome's product length (the contig is
not recorded). -/
theorem c1_amended (firstName : String)
    (ck : List (String × List (String × List Primer)))
    (cps : List (Primer × Primer × Int)) (minP maxP : Int)
    (hfn : firstName ∈ ck.map Prod.fst)
    (hknd : (ck.map Prod.fst).Nodup)
    (hnd : (cps.map (fun t => (t.1, t.2.1))).Nodup)
    (hsucc : ∀ t ∈ cps, ∀ nm ∈ kmapsOf ck firstName,
      (lookupA nm.2 t.1.seq).isSome ∧ (lookupA nm.2 t.2.1.seq).isSome) :
    getAllSharedPrimerPairs firstName ck cps minP maxP
      = some (cps.filterMap (fun t =>
          if (kmapsOf ck firstName).all
              (fun nm => ((checkGenomeLen nm.2 minP maxP t.1 t.2.1).bind id).isSome) then
            some ((t.1, t.2.1),
              (firstName, t.2.2) ::
                genomeEntriesOf (kmapsOf ck firstName) minP maxP t.1 t.2.1)
          else none)) := by
  have hkmlen : (kmapsOf ck firstName).length = ck.length - 1 := by
    unfold kmapsOf
    rw [List.length_map, List.length_erase_of_mem hfn, List.length_map]
  have hck1 : 1 ≤ ck.length := by
    cases ck with
    | nil => simp at hfn
    | cons e l => simp
  unfold getAllSharedPrimerPairs
  rw [if_pos hfn]
  rw [buildOutGo_eq firstName (kmapsOf ck firstName) minP maxP cps [] (by simp) hnd hsucc]
  show some _ = some _
  congr 1
  rw [List.nil_append]
  rw [filter_map_eq_filterMap]
  apply filterMap_congr_mem
  intro t _
  have hel : (genomeEntriesOf (kmapsOf ck firstName) minP maxP t.1 t.2.1).length
      ≤ (kmapsOf ck firstName).length :=
    List.length_filterMap_le _ _
  have hiff : ((genomeEntriesOf (kmapsOf ck firstName) minP maxP t.1 t.2.1).length
      = (kmapsOf ck firstName).length)
      ↔ ∀ nm ∈ kmapsOf ck firstName,
          ((checkGenomeLen nm.2 minP maxP t.1 t.2.1).bind id).isSome := by
    unfold genomeEntriesOf
    rw [filterMap_length_eq_iff]
    constructor
    · intro h nm hnm
      have := h nm hnm
      rwa [Option.isSome_map'] at this
    · intro h nm hnm
      rw [Option.isSome_map']
      exact h nm hnm
  have hb : (!decide ((((firstName, t.2.2) ::
        genomeEntriesOf (kmapsOf ck firstName) minP maxP t.1 t.2.1) :
          List (String × Int)).length < ck.length))
      = (kmapsOf ck firstName).all
          (fun nm => ((checkGenomeLen nm.2 minP maxP t.1 t.2.1).bind id).isSome) := by
    apply bool_eq_of_iff
    rw [Bool.not_eq_true', decide_eq_false_iff_not, List.all_eq_true]
    rw [List.length_cons]
    constructor
    · intro h
      exact hiff.mp (by omega)
    · intro h
      have := hiff.mpr h
      omega
  rw [hb]

/-- Claim C1, counterexample: the two inputs c1CK "c2" and c1CK "c3" differ
only in the contig that genome g2's primers sit on, yet the source function
returns identical outputs for both, while the spec-side recorder (which
stores per-genome (contig, length) pairs) distinguishes them - so the source
does not record the per-genome contig. -/
theorem c1_counterexample :
    getAllSharedPrimerPairs c1G1 (c1CK "c2") c1CPS 1 100
      = getAllSharedPrimerPairs c1G1 (c1CK "c3") c1CPS 1 100 ∧
    getAllSharedPairsSpecRec c1G1 (c1CK "c2") c1CPS 1 100
      ≠ getAllSharedPairsSpecRec c1G1 (c1CK "c3") c1CPS 1 100 := by
  constructor
  · decide
  · decide

/-- Witness for C1 (amended) at the concrete input c1CK "c2". -/
theorem c1_witness :
    (c1G1 ∈ (c1CK "c2").map Prod.fst ∧ ((c1CK "c2").map Prod.fst).Nodup ∧
      (c1CPS.map (fun t => (t.1, t.2.1))).Nodup ∧
      (∀ t ∈ c1CPS, ∀ nm ∈ kmapsOf (c1CK "c2") c1G1,
        (lookupA nm.2 t.1.seq).isSome ∧ (lookupA nm.2 t.2.1.seq).isSome)) ∧
    getAllSharedPrimerPairs c1G1 (c1CK "c2") c1CPS 1 100
      = some (c1CPS.filterMap (fun t =>
          if (kmapsOf (c1CK "c2") c1G1).all
              (fun nm => ((checkGenomeLen nm.2 1 100 t.1 t.2.1).bind id).isSome) then
            some ((t.1, t.2.1),
              (c1G1, t.2.2) :: genomeEntriesOf (kmapsOf (c1CK "c2") c1G1) 1 100 t.1 t.2.1)
          else none)) :=
  ⟨⟨by decide, by decide, by decide, by decide⟩,
    c1_amended c1G1 (c1CK "c2") c1CPS 1 100 (by decide) (by decide) (by decide) (by decide)⟩

/-- Claim C6: the per-genome key sets after the resolver are not all equal and
are not the intersection of the unique-k-mer key sets.  On c6Maps (empty
outgroup) the intersection over all three genomes is empty, yet the code
keeps the key C for genomes g2 and g3 while g1 ends up empty, because
__getSharedKmers tests `sharedKmers == set()` - intended as a first-iteration
test per its own comment - and so restarts the accumulation when the running
intersection becomes empty (getCandidateKmers.py 30-35). -/
theorem c6_code_bug :
    (candidateKeyMaps c6Maps []).map (fun e => (e.1, e.2.map Prod.fst))
      = [(c6G1, []), (c6G2, [[Nuc.C]]), (c6G3, [[Nuc.C]])] := by
  decide

/-- The pairs component of the per-contig fold: entries are kept exactly when
they pass the contig. -/
theorem contigFold_fst (minLen maxLen : Nat) (disallowed : List Int) (cid : String)
    (cseq : Sq) (ps : List PairEntry) :
    ∀ (k0 : List PairEntry) (tbl0 : List ((Primer × Primer) × List OGTuple)),
      (ps.foldl (contigStep minLen maxLen disallowed cid cseq) (k0, tbl0)).1
        = k0 ++ ps.filter (passContigB minLen maxLen disallowed cseq) := by
  induction ps with
  | nil => intro k0 tbl0; simp
  | cons e ps ih =>
    intro k0 tbl0
    rw [List.foldl_cons, List.filter_cons]
    by_cases hp : passContigB minLen maxLen disallowed cseq e
    · have hstep : (contigStep minLen maxLen disallowed cid cseq (k0, tbl0) e).1
          = k0 ++ [e] := by
        unfold contigStep passContigB at *
        by_cases hemp : (getOutgroupProductSizes (kmersLookup cseq minLen maxLen)
            e.fwd e.rev).isEmpty
        · rw [if_pos hemp]
        · rw [if_neg hemp]
          rw [Bool.not_eq_true'] at hp
          rw [if_neg (by simp [hp])]
      obtain ⟨ps1, hps1⟩ : ∃ r, contigStep minLen maxLen disallowed cid cseq (k0, tbl0) e
          = (k0 ++ [e], r) := ⟨_, Prod.ext hstep rfl⟩
      rw [hps1, ih (k0 ++ [e]) _, if_pos hp]
      simp
    · have hne : ¬ (getOutgroupProductSizes (kmersLookup cseq minLen maxLen)
          e.fwd e.rev).isEmpty := by
        intro hemp
        apply hp
        unfold passContigB
        rw [List.isEmpty_iff] at hemp
        rw [hemp]
        simp
      have hany : (getOutgroupProductSizes (kmersLookup cseq minLen maxLen)
          e.fwd e.rev).any (fun len => decide (len ∈ disallowed)) = true := by
        unfold passContigB at hp
        simpa using hp
      have hstep : (contigStep minLen maxLen disallowed cid cseq (k0, tbl0) e).1 = k0 := by
        unfold contigStep
        rw [if_neg hne, if_pos hany]
      obtain ⟨ps1, hps1⟩ : ∃ r, contigStep minLen maxLen disallowed cid cseq (k0, tbl0) e
          = (k0, r) := ⟨_, Prod.ext hstep rfl⟩
      rw [hps1, ih k0 _, if_neg hp]

/-- The pairs component of one genome's step: entries are kept exactly when
they pass every contig of the genome. -/
theorem genomeStep_pairs (minLen maxLen : Nat) (disallowed : List Int)
    (st : ElimSt) (g : String × List (String × Sq)) :
    (genomeStep minLen maxLen disallowed st g).pairs
      = st.pairs.filter (passGenomeB minLen maxLen disallowed g) := by
  unfold genomeStep
  by_cases hemp : st.pairs.isEmpty
  · rw [if_pos hemp]
    rw [List.isEmpty_iff] at hemp
    rw [hemp]
    rfl
  · rw [if_neg hemp]
    unfold passGenomeB
    show (g.2.foldl
        (fun acc c => acc.1.foldl (contigStep minLen maxLen disallowed c.1 c.2) ([], acc.2))
        (st.pairs, [])).1 = _
    have hgen : ∀ (cs : List (String × Sq)) (ps : List PairEntry)
        (tbl : List ((Primer × Primer) × List OGTuple)),
        (cs.foldl
          (fun acc c => acc.1.foldl (contigStep minLen maxLen disallowed c.1 c.2) ([], acc.2))
          (ps, tbl)).1
          = ps.filter (fun e => cs.all (fun c => passContigB minLen maxLen disallowed c.2 e)) := by
      intro cs
      induction cs with
      | nil =>
        intro ps tbl
        simp
      | cons c cs ih =>
        intro ps tbl
        rw [List.foldl_cons]
        obtain ⟨tbl1, htbl1⟩ : ∃ r,
            ps.foldl (contigStep minLen maxLen disallowed c.1 c.2) ([], tbl)
              = (ps.filter (passContigB minLen maxLen disallowed c.2), r) :=
          ⟨_, Prod.ext (by rw [contigFold_fst]; simp) rfl⟩
        rw [htbl1, ih]
        rw [List.filter_filter]
        apply List.filter_congr
        intro e _
        rw [List.all_cons, Bool.and_comm]
    exact hgen g.2 st.pairs []

/-- The surviving pairs of the elimination phase are exactly the input pairs
that pass every contig of every outgroup genome. -/
theorem eliminateOutgroup_pairs (minLen maxLen : Nat) (disallowed : List Int)
    (outgroup : List (String × List (String × Sq))) (pairs0 : List PairEntry) :
    (eliminateOutgroup minLen maxLen disallowed outgroup pairs0).pairs
      = pairs0.filter (fun e => outgroup.all (passGenomeB minLen maxLen disallowed · e)) := by
  have hfold : ∀ (gs : List (String × List (String × Sq))) (st : ElimSt),
      (gs.foldl (genomeStep minLen maxLen disallowed) st).pairs
        = st.pairs.filter (fun e => gs.all (passGenomeB minLen maxLen disallowed · e)) := by
    intro gs
    induction gs with
    | nil =>
      intro st
      simp
    | cons g gs ih =>
      intro st
      rw [List.foldl_cons, ih, genomeStep_pairs, List.filter_filter]
      apply List.filter_congr
      intro e _
      rw [List.all_cons, Bool.and_comm]
  exact hfold outgroup ⟨pairs0, []⟩

/-- Claim C2: a pair survives the outgroup elimination exactly when, in every
outgroup genome and contig, no product length computed by the orientation
rules lies in disallowedLens; in particular a pair with a disallowed product
anywhere is removed, and every survivor has no disallowed product anywhere. -/
theorem c2_outgroup_exclusion (minLen maxLen : Nat) (disallowed : List Int)
    (outgroup : List (String × List (String × Sq))) (pairs0 : List PairEntry)
    (e : PairEntry) (hml : minLen ≤ maxLen) :
    e ∈ (eliminateOutgroup minLen maxLen disallowed outgroup pairs0).pairs ↔
      e ∈ pairs0 ∧ ∀ g ∈ outgroup, ∀ c ∈ g.2,
        ∀ len ∈ getOutgroupProductSizes (kmersLookup c.2 minLen maxLen) e.fwd e.rev,
          len ∉ disallowed := by
  rw [eliminateOutgroup_pairs, List.mem_filter]
  constructor
  · rintro ⟨hmem, hall⟩
    refine ⟨hmem, ?_⟩
    intro g hg c hc len hlen
    rw [List.all_eq_true] at hall
    have hgen := hall g hg
    unfold passGenomeB at hgen
    rw [List.all_eq_true] at hgen
    have hcon := hgen c hc
    unfold passContigB at hcon
    rw [Bool.not_eq_true', List.any_eq_false] at hcon
    intro hd
    exact absurd (by simpa using hd) (by simpa using hcon len hlen)
  · rintro ⟨hmem, hall⟩
    refine ⟨hmem, ?_⟩
    rw [List.all_eq_true]
    intro g hg
    unfold passGenomeB
    rw [List.all_eq_true]
    intro c hc
    unfold passContigB
    rw [Bool.not_eq_true', List.any_eq_false]
    intro len hlen
    simpa using hall g hg c hc len hlen

/-- Witness for C2 at the concrete outgroup c2Outgroup and pair c2Entry. -/
theorem c2_witness :
    (1 : Nat) ≤ 1 ∧
    (c2Entry ∈ (eliminateOutgroup 1 1 [100] c2Outgroup [c2Entry]).pairs ↔
      c2Entry ∈ [c2Entry] ∧ ∀ g ∈ c2Outgroup, ∀ c ∈ g.2,
        ∀ len ∈ getOutgroupProductSizes (kmersLookup c.2 1 1) c2Entry.fwd c2Entry.rev,
          len ∉ ([100] : List Int)) :=
  ⟨by decide, c2_outgroup_exclusion 1 1 [100] c2Outgroup [c2Entry] c2Entry (by decide)⟩

/-- Lookup in an appended table, left-biased. -/
theorem lookupA_append {α β : Type} [DecidableEq α] (l1 l2 : List (α × β)) (k : α) :
    lookupA (l1 ++ l2) k = (lookupA l1 k).or (lookupA l2 k) := by
  unfold lookupA
  rw [List.find?_append]
  cases List.find? (fun e => e.1 == k) l1 <;> simp

/-- tblInit preserves present keys. -/
theorem tblInit_mono (tbl : List ((Primer × Primer) × List OGTuple))
    (k k' : Primer × Primer) (h : (lookupA tbl k').isSome) :
    (lookupA (tblInit tbl k) k').isSome := by
  unfold tblInit
  by_cases hs : (lookupA tbl k).isSome
  · rwa [if_pos hs]
  · rw [if_neg hs, lookupA_append]
    cases hl : lookupA tbl k' with
    | none => rw [hl] at h; simp at h
    | some v => simp [hl]

/-- tblInit makes its key present. -/
theorem tblInit_self (tbl : List ((Primer × Primer) × List OGTuple))
    (k : Primer × Primer) : (lookupA (tblInit tbl k) k).isSome := by
  unfold tblInit
  by_cases hs : (lookupA tbl k).isSome
  · rwa [if_pos hs]
  · rw [if_neg hs, lookupA_append]
    cases hl : lookupA tbl k with
    | none => simp [lookupA_cons_eq]
    | some v => rw [hl] at hs; simp at hs

/-- tblAdd preserves key presence. -/
theorem tblAdd_mono (tbl : List ((Primer × Primer) × List OGTuple))
    (k : Primer × Primer) (xs : List OGTuple) (k' : Primer × Primer)
    (h : (lookupA tbl k').isSome) : (lookupA (tblAdd tbl k xs) k').isSome := by
  rw [lookupA_isSome_iff] at h ⊢
  unfold tblAdd
  have hkeys : ((tbl.map (fun e => if e.1 = k then (e.1, xs.foldl insertNew e.2) else e)).map
      Prod.fst) = tbl.map Prod.fst := by
    rw [List.map_map]
    apply List.map_congr_left
    intro e _
    by_cases he : e.1 = k <;> simp [he]
  rw [hkeys]
  exact h

/-- The per-pair contig step keeps the products table monotone in keys and
registers the processed pair. -/
theorem contigStep_tbl (minLen maxLen : Nat) (disallowed : List Int) (cid : String)
    (cseq : Sq) (acc : List PairEntry × List ((Primer × Primer) × List OGTuple))
    (e : PairEntry) :
    (∀ k', (lookupA acc.2 k').isSome →
      (lookupA (contigStep minLen maxLen disallowed cid cseq acc e).2 k').isSome) ∧
    (lookupA (contigStep minLen maxLen disallowed cid cseq acc e).2 (e.fwd, e.rev)).isSome := by
  unfold contigStep
  by_cases hemp : (getOutgroupProductSizes (kmersLookup cseq minLen maxLen)
      e.fwd e.rev).isEmpty
  · rw [if_pos hemp]
    exact ⟨fun k' h => tblAdd_mono _ _ _ k' (tblInit_mono acc.2 _ k' h),
      tblAdd_mono _ _ _ _ (tblInit_self acc.2 _)⟩
  · rw [if_neg hemp]
    by_cases hany : (getOutgroupProductSizes (kmersLookup cseq minLen maxLen)
        e.fwd e.rev).any (fun len => decide (len ∈ disallowed))
    · rw [if_pos hany]
      exact ⟨fun k' h => tblInit_mono acc.2 _ k' h, tblInit_self acc.2 _⟩
    · rw [if_neg hany]
      exact ⟨fun k' h => tblAdd_mono _ _ _ k' (tblInit_mono acc.2 _ k' h),
        tblAdd_mono _ _ _ _ (tblInit_self acc.2 _)⟩

/-- The per-contig fold keeps the table monotone and registers every
processed pair. -/
theorem contigFold_tbl (minLen maxLen : Nat) (disallowed : List Int) (cid : String)
    (cseq : Sq) (ps : List PairEntry) :
    ∀ (k0 : List PairEntry) (tbl0 : List ((Primer × Primer) × List OGTuple)),
      (∀ k', (lookupA tbl0 k').isSome →
        (lookupA (ps.foldl (contigStep minLen maxLen disallowed cid cseq) (k0, tbl0)).2
          k').isSome) ∧
      (∀ e ∈ ps,
        (lookupA (ps.foldl (contigStep minLen maxLen disallowed cid cseq) (k0, tbl0)).2
          (e.fwd, e.rev)).isSome) := by
  induction ps with
  | nil => intro k0 tbl0; exact ⟨fun k' h => h, by simp⟩
  | cons e ps ih =>
    intro k0 tbl0
    rw [List.foldl_cons]
    obtain ⟨hmono, hself⟩ := contigStep_tbl minLen maxLen disallowed cid cseq (k0, tbl0) e
    rcases hstep : contigStep minLen maxLen disallowed cid cseq (k0, tbl0) e with ⟨ke, te⟩
    rw [hstep] at hmono hself
    obtain ⟨ihmono, ihall⟩ := ih ke te
    refine ⟨fun k' h => ihmono k' (hmono k' h), ?_⟩
    intro e' he'
    rcases List.mem_cons.mp he' with h1 | he'
    · subst h1
      exact ihmono _ hself
    · exact ihall e' he'

/-- After processing a non-empty list of contigs, every input pair is
registered in the genome's products table, and existing keys persist. -/
theorem contigsFold_tbl (minLen maxLen : Nat) (disallowed : List Int)
    (cs : List (String × Sq)) :
    ∀ (ps : List PairEntry) (tbl : List ((Primer × Primer) × List OGTuple)),
      (∀ k', (lookupA tbl k').isSome →
        (lookupA (cs.foldl
          (fun acc c => acc.1.foldl (contigStep minLen maxLen disallowed c.1 c.2) ([], acc.2))
          (ps, tbl)).2 k').isSome) ∧
      (cs ≠ [] → ∀ e ∈ ps,
        (lookupA (cs.foldl
          (fun acc c => acc.1.foldl (contigStep minLen maxLen disallowed c.1 c.2) ([], acc.2))
          (ps, tbl)).2 (e.fwd, e.rev)).isSome) := by
  induction cs with
  | nil => intro ps tbl; exact ⟨fun k' h => h, fun h => absurd rfl h⟩
  | cons c cs ih =>
    intro ps tbl
    rw [List.foldl_cons]
    dsimp only
    obtain ⟨hmono1, hall1⟩ := contigFold_tbl minLen maxLen disallowed c.1 c.2 ps [] tbl
    rcases hstep : ps.foldl (contigStep minLen maxLen disallowed c.1 c.2) ([], tbl)
      with ⟨ps1, tbl1⟩
    rw [hstep] at hmono1 hall1
    obtain ⟨ihmono, ihall⟩ := ih ps1 tbl1
    exact ⟨fun k' h => ihmono k' (hmono1 k' h),
      fun _ e he => ihmono _ (hall1 e he)⟩

/-- Lookup of an absent key in a one-entry list. -/
theorem lookupA_singleton_ne {α β : Type} [DecidableEq α] (a k : α) (v : β)
    (h : k ≠ a) : lookupA [(a, v)] k = none := by
  rw [lookupA_cons_ne a v [] k (Ne.symm h)]
  rfl

/-- __processOutgroupResults produces a cell for every registered pair:
each arm of its case analysis stores a value. -/
theorem processPairGenome_isSome (tbl : List ((Primer × Primer) × List OGTuple))
    (k : Primer × Primer) (h : (lookupA tbl k).isSome) :
    (processPairGenome tbl k).isSome := by
  obtain ⟨result, hl⟩ := Option.isSome_iff_exists.mp h
  unfold processPairGenome
  rw [hl]
  rcases result with _ | ⟨t, _ | ⟨t2, rest2⟩⟩
  · rfl
  · rfl
  · show (match (t :: t2 :: rest2).erase nullProduct with
      | [t] => some (cellOfTuple t)
      | r2 => some (joinCells r2)).isSome = true
    rcases (t :: t2 :: rest2).erase nullProduct with _ | ⟨a, _ | ⟨b, r⟩⟩ <;> rfl

/-- Dict assignment at an absent key appends the new entry. -/
theorem updateCell_append (info : List (String × OutVal)) (name : String) (c : OutVal)
    (h : lookupA info name = none) : updateCell info name c = info ++ [(name, c)] := by
  unfold updateCell
  rw [h]
  rfl

/-- The genome loop of __processOutgroupResults succeeds when every genome
has a cell for the pair, and, when the genome names are fresh for the
accumulated info and mutually distinct, it only appends entries. -/
theorem processNames_append (k : Primer × Primer)
    (ogp : List (String × List ((Primer × Primer) × List OGTuple))) :
    ∀ info : List (String × OutVal),
      (∀ nt ∈ ogp, (processPairGenome nt.2 k).isSome) →
      (∀ nt ∈ ogp, lookupA info nt.1 = none) →
      (ogp.map Prod.fst).Nodup →
      ∃ tail, processNames k ogp info = some (info ++ tail) := by
  induction ogp with
  | nil => intro info _ _ _; exact ⟨[], by simp [processNames]⟩
  | cons nt rest ih =>
    rcases nt with ⟨name, tbl⟩
    intro info hsome hnone hnd
    obtain ⟨c, hc⟩ := Option.isSome_iff_exists.mp (hsome (name, tbl) (by simp))
    have hstep : processNames k ((name, tbl) :: rest) info
        = processNames k rest (updateCell info name c) := by
      show (match processPairGenome tbl k with
        | none => none
        | some c => processNames k rest (updateCell info name c)) = _
      rw [hc]
    have hupd : updateCell info name c = info ++ [(name, c)] :=
      updateCell_append info name c (hnone (name, tbl) (by simp))
    rw [List.map_cons, List.nodup_cons] at hnd
    obtain ⟨hnin, hnd'⟩ := hnd
    have hnone' : ∀ nt' ∈ rest, lookupA (info ++ [(name, c)]) nt'.1 = none := by
      intro nt' hnt'
      rw [lookupA_append, hnone nt' (by simp [hnt'])]
      have hne : nt'.1 ≠ name := by
        intro heq
        apply hnin
        rw [← heq]
        exact List.mem_map.mpr ⟨nt', hnt', rfl⟩
      rw [lookupA_singleton_ne name nt'.1 c hne]
      rfl
    obtain ⟨tail, htail⟩ := ih (info ++ [(name, c)])
      (fun nt' hnt' => hsome nt' (by simp [hnt'])) hnone' hnd'
    refine ⟨(name, c) :: tail, ?_⟩
    rw [hstep, hupd, htail, List.append_assoc, List.singleton_append]

/-- __processOutgroupResults succeeds on every pair that is registered in
every genome's table, and augments each pair's info rather than replacing
it. -/
theorem processAllPairs_some
    (ogp : List (String × List ((Primer × Primer) × List OGTuple))) :
    ∀ pairs : List PairEntry,
      (∀ e ∈ pairs, ∀ nt ∈ ogp, (lookupA nt.2 (e.fwd, e.rev)).isSome) →
      (∀ e ∈ pairs, ∀ nt ∈ ogp, lookupA e.info nt.1 = none) →
      (ogp.map Prod.fst).Nodup →
      ∃ res, processAllPairs ogp pairs = some res ∧
        List.Forall₂
          (fun e r => r.fwd = e.fwd ∧ r.rev = e.rev ∧ ∃ t, r.info = e.info ++ t)
          pairs res := by
  intro pairs
  induction pairs with
  | nil => intro _ _ _; exact ⟨[], rfl, List.Forall₂.nil⟩
  | cons e rest ih =>
    intro hsome hnone hnd
    obtain ⟨tail, htail⟩ := processNames_append (e.fwd, e.rev) ogp e.info
      (fun nt hnt => processPairGenome_isSome nt.2 _ (hsome e (by simp) nt hnt))
      (fun nt hnt => hnone e (by simp) nt hnt) hnd
    obtain ⟨res, hres, hfa⟩ := ih (fun e' he' => hsome e' (by simp [he']))
      (fun e' he' => hnone e' (by simp [he'])) hnd
    refine ⟨(⟨e.fwd, e.rev, e.info ++ tail⟩ : PairEntry) :: res, ?_, ?_⟩
    · show ((match processNames (e.fwd, e.rev) ogp e.info, processAllPairs ogp rest with
        | some info', some rest' => some ((⟨e.fwd, e.rev, info'⟩ : PairEntry) :: rest')
        | _, _ => none) : Option (List PairEntry)) = _
      rw [htail, hres]
    · exact List.Forall₂.cons ⟨rfl, rfl, tail, rfl⟩ hfa

/-- The outgroupProducts component of one genome's step when pairs remain. -/
theorem genomeStep_ogp (minLen maxLen : Nat) (disallowed : List Int) (st : ElimSt)
    (g : String × List (String × Sq)) (h : ¬ st.pairs.isEmpty) :
    (genomeStep minLen maxLen disallowed st g).ogp
      = st.ogp ++ [(g.1, (g.2.foldl
          (fun acc c => acc.1.foldl (contigStep minLen maxLen disallowed c.1 c.2) ([], acc.2))
          (st.pairs, [])).2)] := by
  unfold genomeStep
  rw [if_neg h]

/-- Invariant of the genome loop: when every genome has at least one contig,
every recorded genome table registers every surviving pair, and the recorded
genome names extend the initial ones by a selection of the processed names. -/
theorem genomeFold_ogp (minLen maxLen : Nat) (disallowed : List Int)
    (gs : List (String × List (String × Sq))) :
    ∀ st : ElimSt, (∀ g ∈ gs, g.2 ≠ []) →
      (∀ nt ∈ st.ogp, ∀ e ∈ st.pairs, (lookupA nt.2 (e.fwd, e.rev)).isSome) →
      (∀ nt ∈ (gs.foldl (genomeStep minLen maxLen disallowed) st).ogp,
        ∀ e ∈ (gs.foldl (genomeStep minLen maxLen disallowed) st).pairs,
          (lookupA nt.2 (e.fwd, e.rev)).isSome) ∧
      ((gs.foldl (genomeStep minLen maxLen disallowed) st).ogp.map Prod.fst).Sublist
        (st.ogp.map Prod.fst ++ gs.map Prod.fst) := by
  induction gs with
  | nil => intro st _ hinv; exact ⟨hinv, by simp⟩
  | cons g gs ih =>
    intro st hne hinv
    rw [List.foldl_cons]
    by_cases hemp : st.pairs.isEmpty
    · have hstep : genomeStep minLen maxLen disallowed st g = st := by
        unfold genomeStep
        rw [if_pos hemp]
      rw [hstep]
      obtain ⟨h1, h2⟩ := ih st (fun g' hg' => hne g' (by simp [hg'])) hinv
      refine ⟨h1, h2.trans ?_⟩
      rw [List.map_cons]
      exact List.Sublist.append_left (List.sublist_cons_self _ _) _
    · have hogp := genomeStep_ogp minLen maxLen disallowed st g hemp
      have hpairs := genomeStep_pairs minLen maxLen disallowed st g
      have hinv1 : ∀ nt ∈ (genomeStep minLen maxLen disallowed st g).ogp,
          ∀ e ∈ (genomeStep minLen maxLen disallowed st g).pairs,
            (lookupA nt.2 (e.fwd, e.rev)).isSome := by
        intro nt hnt e he
        have hemem : e ∈ st.pairs := by
          rw [hpairs] at he
          exact List.mem_of_mem_filter he
        rw [hogp] at hnt
        rcases List.mem_append.mp hnt with hold | hnew
        · exact hinv nt hold e hemem
        · rw [List.mem_singleton] at hnew
          subst hnew
          obtain ⟨_, hall⟩ := contigsFold_tbl minLen maxLen disallowed g.2 st.pairs []
          exact hall (hne g (by simp)) e hemem
      obtain ⟨h1, h2⟩ := ih (genomeStep minLen maxLen disallowed st g)
        (fun g' hg' => hne g' (by simp [hg'])) hinv1
      refine ⟨h1, h2.trans ?_⟩
      have heq : (genomeStep minLen maxLen disallowed st g).ogp.map Prod.fst
            ++ gs.map Prod.fst
          = st.ogp.map Prod.fst ++ (g :: gs).map Prod.fst := by
        rw [hogp]
        simp
      rw [heq]

/-- Claim C9: under the stated well-formedness of the inputs (every outgroup
genome has at least one contig, outgroup genome names are distinct, and no
pair's info already mentions an outgroup genome name), _removeOutgroupPrimers
raises the RuntimeError exactly when the elimination phase leaves the pairs
dict empty; when at least one pair survives, the stage completes normally and
every surviving pair keeps its primers and its existing info entries, gaining
only appended outgroup entries. -/
theorem c9_error_iff (minLen maxLen : Nat) (disallowed : List Int)
    (outgroup : List (String × List (String × Sq))) (pairs0 : List PairEntry)
    (hne : ∀ g ∈ outgroup, g.2 ≠ [])
    (hnd : (outgroup.map Prod.fst).Nodup)
    (hdisj : ∀ e ∈ pairs0, ∀ g ∈ outgroup, lookupA e.info g.1 = none) :
    (removeOutgroupPrimers minLen maxLen disallowed outgroup pairs0
        = Except.error noPairsErrMsg
      ↔ (eliminateOutgroup minLen maxLen disallowed outgroup pairs0).pairs = []) ∧
    ((eliminateOutgroup minLen maxLen disallowed outgroup pairs0).pairs ≠ [] →
      ∃ res, removeOutgroupPrimers minLen maxLen disallowed outgroup pairs0
          = Except.ok res ∧
        List.Forall₂
          (fun e r => r.fwd = e.fwd ∧ r.rev = e.rev ∧ ∃ t, r.info = e.info ++ t)
          (eliminateOutgroup minLen maxLen disallowed outgroup pairs0).pairs res) := by
  have hrop : removeOutgroupPrimers minLen maxLen disallowed outgroup pairs0
      = (if (eliminateOutgroup minLen maxLen disallowed outgroup pairs0).pairs.isEmpty
         then Except.error noPairsErrMsg
         else
           match processAllPairs
               (eliminateOutgroup minLen maxLen disallowed outgroup pairs0).ogp
               (eliminateOutgroup minLen maxLen disallowed outgroup pairs0).pairs with
           | some res => Except.ok res
           | none => Except.error keyErrMsg) := rfl
  obtain ⟨hinv, hsub⟩ := genomeFold_ogp minLen maxLen disallowed outgroup ⟨pairs0, []⟩
    hne (fun nt hnt => absurd hnt (List.not_mem_nil nt))
  have helim : eliminateOutgroup minLen maxLen disallowed outgroup pairs0
      = outgroup.foldl (genomeStep minLen maxLen disallowed) ⟨pairs0, []⟩ := rfl
  rw [← helim] at hinv hsub
  by_cases hemp : (eliminateOutgroup minLen maxLen disallowed outgroup pairs0).pairs.isEmpty
  · have hnil := List.isEmpty_iff.mp hemp
    refine ⟨?_, fun hne' => absurd hnil hne'⟩
    rw [hrop, if_pos hemp]
    simp [hnil]
  · have hne' : (eliminateOutgroup minLen maxLen disallowed outgroup pairs0).pairs ≠ [] :=
      fun h => hemp (List.isEmpty_iff.mpr h)
    have h2 : ∀ e ∈ (eliminateOutgroup minLen maxLen disallowed outgroup pairs0).pairs,
        ∀ nt ∈ (eliminateOutgroup minLen maxLen disallowed outgroup pairs0).ogp,
          lookupA e.info nt.1 = none := by
      intro e he nt hnt
      have hmem0 : e ∈ pairs0 := by
        rw [eliminateOutgroup_pairs] at he
        exact List.mem_of_mem_filter he
      have hname : nt.1 ∈ outgroup.map Prod.fst := by
        have : nt.1 ∈ (eliminateOutgroup minLen maxLen disallowed
            outgroup pairs0).ogp.map Prod.fst := List.mem_map.mpr ⟨nt, hnt, rfl⟩
        have hs := hsub.subset this
        simpa using hs
      obtain ⟨g, hg, hg1⟩ := List.mem_map.mp hname
      rw [← hg1]
      exact hdisj e hmem0 g hg
    have h1 : ∀ e ∈ (eliminateOutgroup minLen maxLen disallowed outgroup pairs0).pairs,
        ∀ nt ∈ (eliminateOutgroup minLen maxLen disallowed outgroup pairs0).ogp,
          (lookupA nt.2 (e.fwd, e.rev)).isSome :=
      fun e he nt hnt => hinv nt hnt e he
    have hnd' : ((eliminateOutgroup minLen maxLen disallowed
        outgroup pairs0).ogp.map Prod.fst).Nodup := by
      apply List.Nodup.sublist ?_ hnd
      simpa using hsub
    obtain ⟨res, hres, hfa⟩ := processAllPairs_some
      (eliminateOutgroup minLen maxLen disallowed outgroup pairs0).ogp
      (eliminateOutgroup minLen maxLen disallowed outgroup pairs0).pairs h1 h2 hnd'
    refine ⟨?_, fun _ => ⟨res, ?_, hfa⟩⟩
    · rw [hrop, if_neg hemp, hres]
      simp [hne']
    · rw [hrop, if_neg hemp, hres]

/-- Witness for C9 at the concrete outgroup c2Outgroup and the single pair
c2Entry. -/
theorem c9_witness :
    ((∀ g ∈ c2Outgroup, g.2 ≠ []) ∧ (c2Outgroup.map Prod.fst).Nodup ∧
      (∀ e ∈ [c2Entry], ∀ g ∈ c2Outgroup, lookupA e.info g.1 = none)) ∧
    ((removeOutgroupPrimers 1 1 [100] c2Outgroup [c2Entry]
        = Except.error noPairsErrMsg
      ↔ (eliminateOutgroup 1 1 [100] c2Outgroup [c2Entry]).pairs = []) ∧
    ((eliminateOutgroup 1 1 [100] c2Outgroup [c2Entry]).pairs ≠ [] →
      ∃ res, removeOutgroupPrimers 1 1 [100] c2Outgroup [c2Entry]
          = Except.ok res ∧
        List.Forall₂
          (fun e r => r.fwd = e.fwd ∧ r.rev = e.rev ∧ ∃ t, r.info = e.info ++ t)
          (eliminateOutgroup 1 1 [100] c2Outgroup [c2Entry]).pairs res)) :=
  ⟨⟨by decide, by decide, by decide⟩,
    c9_error_iff 1 1 [100] c2Outgroup [c2Entry] (by decide) (by decide) (by decide)⟩

/-- Folding appends of single images equals appending the map. -/
theorem foldl_append_eq_map {α β : Type} (f : α → β) (l : List α) :
    ∀ init : List β, l.foldl (fun acc e => acc ++ [f e]) init = init ++ l.map f := by
  induction l with
  | nil => intro init; simp
  | cons a l ih =>
    intro init
    rw [List.foldl_cons, ih, List.map_cons]
    simp

/-- Claim C8 amended: __writePrimerPairs emits the header row followed by one
row per pair in the pairs dict's insertion order, with no reordering: the
emitted pair sequence is exactly the dict's key sequence.  (The claimed
deterministic sort by (fwd.contig, fwd.start, rev.start, fwd.seq, rev.seq)
does not exist in the code, as c8_counterexample shows.) -/
theorem c8_amended (TmOf : Sq → ℚ) (pairs : List PairRow) :
    writePrimerPairsRows TmOf pairs
      = headerRowOf ((pairs.head?.map (fun e => e.2.map Prod.fst)).getD [])
        :: pairs.map (rowOf TmOf ((pairs.head?.map (fun e => e.2.map Prod.fst)).getD []))
    ∧ writeEmissionOrder pairs = pairs.map Prod.fst := by
  constructor
  · show headerRowOf ((pairs.head?.map (fun e => e.2.map Prod.fst)).getD [])
        :: pairs.foldl
          (fun acc e => acc ++
            [rowOf TmOf ((pairs.head?.map (fun e => e.2.map Prod.fst)).getD []) e]) []
      = _
    rw [foldl_append_eq_map
      (rowOf TmOf ((pairs.head?.map (fun e => e.2.map Prod.fst)).getD [])) pairs []]
    rfl
  · show pairs.foldl (fun acc e => acc ++ [e.1]) [] = _
    rw [foldl_append_eq_map Prod.fst pairs []]
    rfl

/-- Counterexample to claim C8: on the two-pair input c8Input the writer
emits the pairs in dict insertion order, which is not sorted by the claimed
key (fwd.contig, fwd.start, rev.start, fwd.seq, rev.seq). -/
theorem c8_counterexample :
    writeEmissionOrder c8Input = [c8PairA.1, c8PairB.1] ∧
    ¬ List.Pairwise (fun a b => pairKeyLeB a b = true) (writeEmissionOrder c8Input) := by
  constructor
  · rfl
  · decide
